import Mathlib

/-!
Shallow embedding of the graphql-client code-generation core
(src/lib.rs, src/codegen.rs, src/shared.rs, src/inputs.rs).

Conventions of the embedding:
* TokenStream values are represented structurally: a rendered struct field
  becomes a `RenderedField` record, an emitted type definition a `TypeDef`.
  An empty TokenStream returned by `render_object_field` is `none`.
* The `Cell<bool>` required flags that live on schema entities are modelled
  as an explicit state (`ReqState`) threaded through the pipeline, holding
  the set of required type names and required fragment names.
* `failure::Error` values are modelled by the inductive `GenError`, one
  constructor per `format_err!`/`panic!` site, with `GenError.message`
  rendering the exact format strings of the source.
* Code of this repository that is referenced but not present under src/
  (schema.rs, query.rs, field_type.rs, fragments.rs, variables.rs,
  operations.rs, constants.rs) is modelled from the spec; each such
  definition carries a doc comment starting with `Modelled from the spec:`.
-/

/-! ## Case conversion (models the external heck crate) -/

/-- Helper for `toSnakeCase`: walks the character list keeping the previous
character; an uppercase letter is lowercased and, when it follows a
lowercase letter or a digit, prefixed with an underscore. -/
def toSnakeCaseGo : Option Char → List Char → List Char
  | _, [] => []
  | p, c :: rest =>
    if c.isUpper then
      (match p with
       | some pc => if pc.isLower || pc.isDigit then ['_', c.toLower] else [c.toLower]
       | none => [c.toLower]) ++ toSnakeCaseGo (some c) rest
    else c :: toSnakeCaseGo (some c) rest

/-- Models `heck::SnakeCase::to_snake_case` on the camel/Pascal-case ASCII
identifiers that occur in GraphQL documents (heck is an external crate;
this is the word-boundary-at-uppercase rule used by it). -/
def toSnakeCase (s : String) : String := String.mk (toSnakeCaseGo none s.toList)

/-- Helper for `toCamelCase`: the flag says whether the next letter must be
capitalized (start of a word). -/
def toCamelCaseGo : Bool → List Char → List Char
  | _, [] => []
  | cap, c :: rest =>
    if c = '_' then toCamelCaseGo true rest
    else (if cap then c.toUpper else c) :: toCamelCaseGo false rest

/-- Models `heck::CamelCase::to_camel_case` (upper camel case) on ASCII
identifiers: capitalizes the first letter and every letter following an
underscore, dropping the underscores. -/
def toCamelCase (s : String) : String := String.mk (toCamelCaseGo true s.toList)

/-! ## Field types and rendered Rust types -/

/-- Modelled from the spec: the Field-Type Descriptor of section 3
(field_type.rs is not under src/): a recursive sum over Named, List and
Optional, with the innermost node always Named. Constructor names follow
the source test in inputs.rs (`FieldType::Named/Vector/Optional`). -/
inductive FieldType
  | named (name : String)
  | vector (inner : FieldType)
  | optional (inner : FieldType)
deriving DecidableEq

/-- Modelled from the spec: the innermost Named node of a descriptor
(`FieldType::inner_name_str`, field_type.rs is not under src/). -/
def FieldType.inner_name_str : FieldType → String
  | .named n => n
  | .vector inner => inner.inner_name_str
  | .optional inner => inner.inner_name_str

/-- Modelled from the spec: a field type counts as already indirected when
it is inside a list or optional wrapper (`FieldType::is_indirected`,
field_type.rs is not under src/; spec section 4.5 and section 9). -/
def FieldType.is_indirected : FieldType → Bool
  | .named _ => false
  | .vector _ => true
  | .optional _ => true

/-- A structural stand-in for the Rust type TokenStream a field type
renders to: named types, Vec, Option and Box wrappers. -/
inductive RustType
  | named (name : String)
  | vec (inner : RustType)
  | option (inner : RustType)
  | boxed (inner : RustType)
deriving DecidableEq

/-- Modelled from the spec: rendering of a Field-Type Descriptor
(`FieldType::to_rust`, field_type.rs is not under src/): Named renders as
the type name, List as Vec, Optional as Option, as fixed by the expected
output in the inputs.rs test. The naming prefix of section 4.3 renames
only object-shaped response types, which no claim below inspects, so the
prefix argument is carried but not applied. -/
def FieldType.to_rust (prefx : String) : FieldType → RustType
  | .named n => .named n
  | .vector inner => .vec (inner.to_rust prefx)
  | .optional inner => .option (inner.to_rust prefx)

/-! ## Deprecation (deprecation.rs is private to the crate but its two
enums are fully pinned down by the match in shared.rs) -/

inductive DeprecationStatus
  | current
  | deprecated (reason : Option String)
deriving DecidableEq

inductive DeprecationStrategy
  | allow
  | deny
  | warn
deriving DecidableEq

/-! ## Schema model -/

/-- A field of an object / interface / input object (objects.rs is not
under src/ but the struct is spelled out in the inputs.rs test). -/
structure GqlObjectField where
  description : Option String
  name : String
  type_ : FieldType
  deprecation : DeprecationStatus
deriving DecidableEq

/-- Represents an input object type from a GraphQL schema (inputs.rs).
The `is_required` cell is externalized into `ReqState`. -/
structure GqlInput where
  description : Option String
  name : String
  fields : List GqlObjectField
deriving DecidableEq

/-- Modelled from the spec: an enum schema type with ordered variants
(enums.rs is not under src/). -/
structure GqlEnum where
  name : String
  variants : List String
deriving DecidableEq

/-- Modelled from the spec: a custom scalar, carrying only its name
(scalars.rs is not under src/). -/
structure GqlScalar where
  name : String
deriving DecidableEq

/-- Modelled from the spec: an object type with a field mapping
(objects.rs is not under src/). -/
structure GqlObject where
  name : String
  fields : List GqlObjectField
deriving DecidableEq

/-- One item of a selection tree (selection.rs is not under src/ but its
three variants are matched exhaustively in shared.rs). -/
inductive SelectionItem
  | field (name : String) (alias_ : Option String) (fields : List SelectionItem)
  | fragmentSpread (fragment_name : String)
  | inlineFragment (on_type : String) (fields : List SelectionItem)

/-- A fragment definition as stored in the query context (codegen.rs
lines 56-67; the `is_required` cell is externalized into `ReqState`). -/
structure GqlFragment where
  name : String
  on_type : String
  selection : List SelectionItem

/-- Modelled from the spec: the canonical schema graph (schema.rs is not
under src/): named objects, input objects, enums and scalars, plus the
root type name for each operation kind. HashMaps become association
lists; names are unique within a schema. -/
structure Schema where
  objects : List GqlObject
  inputs : List GqlInput
  enums : List GqlEnum
  scalars : List GqlScalar
  query_type : String
  mutation_type : String
  subscription_type : String
deriving DecidableEq

def Schema.lookupInput (s : Schema) (n : String) : Option GqlInput :=
  s.inputs.find? (fun i => i.name == n)

def Schema.hasEnum (s : Schema) (n : String) : Bool :=
  s.enums.any (fun e => e.name == n)

def Schema.hasScalar (s : Schema) (n : String) : Bool :=
  s.scalars.any (fun sc => sc.name == n)

def Schema.lookupObject (s : Schema) (n : String) : Option GqlObject :=
  s.objects.find? (fun o => o.name == n)

/-- Modelled from the spec: the four built-in primitives of section 4.6
(constants.rs is not under src/). -/
def builtinScalars : List String := ["Boolean", "Float", "Int", "ID"]

/-- A name refers to a flaggable schema entity (input object, enum or
custom scalar). -/
def Schema.isEntity (s : Schema) (n : String) : Bool :=
  (s.lookupInput n).isSome || s.hasEnum n || s.hasScalar n

/-! ## Required-flag state and the recursive marking protocol -/

/-- The `Cell<bool>` required flags of all schema entities and of all
fragments, externalized as two name sets (spec section 9 recommends
exactly this remodelling). -/
structure ReqState where
  required : List String
  required_fragments : List String
deriving DecidableEq

/-- Modelled from the spec: the recursive `mark_required` protocol of
section 4.1 (schema.rs is not under src/), written with an explicit
worklist and fuel so that it is structurally recursive. Marking a name
looks it up: an input object not yet marked is marked and its field inner
names are pushed onto the worklist (depth first, exactly the sequential
`schema.require` calls of `GqlInput::require`); an enum or scalar is
marked; an unknown or object name marks nothing. A name already marked
short-circuits. -/
def requireAuxF (s : Schema) : Nat → List String → List String → List String
  | 0, st, _ => st
  | _ + 1, st, [] => st
  | fuel + 1, st, n :: rest =>
    if st.contains n then requireAuxF s fuel st rest
    else
      match s.lookupInput n with
      | some inp =>
          requireAuxF s fuel (n :: st)
            ((inp.fields.map (fun f => f.type_.inner_name_str)) ++ rest)
      | none =>
          if s.hasEnum n || s.hasScalar n then requireAuxF s fuel (n :: st) rest
          else requireAuxF s fuel st rest

/-- Total field count of the input objects not yet marked in `st`; the
potential function bounding the number of marking steps. -/
def sumUnmarked (s : Schema) (st : List String) : Nat :=
  ((s.inputs.filter (fun i => !(st.contains i.name))).map (fun i => i.fields.length)).sum

/-- Fuel sufficient to run the marking worklist to completion: one unit
per pending name plus one per field of each not-yet-marked input object. -/
def requireFuel (s : Schema) (st ws : List String) : Nat :=
  ws.length + sumUnmarked s st

/-- The marking worklist run with sufficient fuel. -/
def requireAux (s : Schema) (st ws : List String) : List String :=
  requireAuxF s (requireFuel s st ws) st ws

/-- Modelled from the spec: `Schema::require` / `mark_required(name)`
(schema.rs is not under src/). -/
def Schema.require (s : Schema) (st : List String) (n : String) : List String :=
  requireAux s st [n]

/-- `GqlInput::require` (inputs.rs lines 22-31): short-circuit when the
flag is already set, otherwise set it and require the inner named type of
every field. -/
def GqlInput.require (s : Schema) (inp : GqlInput) (st : List String) : List String :=
  if st.contains inp.name then st
  else requireAux s (inp.name :: st) (inp.fields.map (fun f => f.type_.inner_name_str))

/-! ## Errors -/

/-- One constructor per `format_err!` / `panic!` site reachable from the
embedded pipeline. -/
inductive GenError
  | unknownFieldResp (field : String) (type_name : String) (available : List String)
  | unknownFieldImpl (field : String)
  | inlineFragmentNotSupported
  | multipleSubscriptionFields
  | missingRootObject (root : String)
  | unknownType (name : String)
deriving DecidableEq

/-- Modelled from the spec: the text of
`constants::MULTIPLE_SUBSCRIPTION_FIELDS_ERROR` (constants.rs is not
under src/; the spec classifies it as the multi-field subscription
UnsupportedSelectionError). -/
def MULTIPLE_SUBSCRIPTION_FIELDS_ERROR : String :=
  "Multiple-field queries on the root subscription type are forbidden"

/-- Separator-joined concatenation (models the itertools
`.format("`, `")` call of shared.rs lines 117-120). -/
def joinSep (sep : String) : List String → String
  | [] => ""
  | [a] => a
  | a :: rest => a ++ sep ++ joinSep sep rest

/-- The error message each site formats (shared.rs lines 82, 113-121,
146-148; codegen.rs lines 77-80, 85-90). -/
def GenError.message : GenError → String
  | .unknownFieldResp field type_name available =>
      "Could not find field `" ++ field ++ "` on `" ++ type_name ++
        "`. Available fields: `" ++ joinSep "`, `" available ++ "`."
  | .unknownFieldImpl field => "could not find field `" ++ field ++ "`"
  | .inlineFragmentNotSupported => "unimplemented: inline fragment on object field"
  | .multipleSubscriptionFields => MULTIPLE_SUBSCRIPTION_FIELDS_ERROR
  | .missingRootObject root => "operation type '" ++ root ++ "' not in schema"
  | .unknownType name => "unknown type " ++ name

/-! ## shared.rs -/

/-- One rendered struct field: the emitted identifier, its Rust type, the
optional serde rename target, the optional deprecation marker (with its
optional reason), the optional doc string, and whether it is a flattened
fragment field. -/
structure RenderedField where
  name : String
  type_ : RustType
  rename : Option String
  deprecation_note : Option (Option String)
  doc : Option String
  flatten : Bool
deriving DecidableEq

/-- `shared::field_rename_annotation` (shared.rs lines 162-168): a serde
rename to the GraphQL name when it differs from the Rust name. -/
def field_rename_annot (graphql_name rust_name : String) : Option String :=
  if graphql_name ≠ rust_name then some graphql_name else none

/-- The reserved-keyword list of shared.rs lines 40-46. -/
def reserved : List String :=
  ["abstract", "alignof", "as", "become", "box", "break", "const", "continue", "crate", "do",
   "else", "enum", "extern", "false", "final", "fn", "for", "if", "impl", "in", "let", "loop",
   "macro", "match", "mod", "move", "mut", "offsetof", "override", "priv", "proc", "pub",
   "pure", "ref", "return", "Self", "self", "sizeof", "static", "struct", "super", "trait",
   "true", "type", "typeof", "unsafe", "unsized", "use", "virtual", "where", "while", "yield"]

/-- `shared::render_object_field` (shared.rs lines 10-63). Returns `none`
for the empty TokenStream produced under the Deny strategy. -/
def render_object_field (field_name : String) (field_type : RustType)
    (description : Option String) (status : DeprecationStatus)
    (strategy : DeprecationStrategy) : Option RenderedField :=
  match status, strategy with
  | .deprecated _, .deny => none
  | status, strategy =>
    let deprecation_note : Option (Option String) :=
      match status, strategy with
      | _, .allow => none
      | .current, _ => none
      | .deprecated (some reason), .warn => some (some reason)
      | .deprecated none, .warn => some none
      | .deprecated _, .deny => none
    if reserved.contains field_name then
      some { name := field_name ++ "_", type_ := field_type,
             rename := some field_name, deprecation_note := deprecation_note,
             doc := description, flatten := false }
    else
      let snake_case_name := toSnakeCase field_name
      some { name := snake_case_name, type_ := field_type,
             rename := field_rename_annot field_name snake_case_name,
             deprecation_note := deprecation_note,
             doc := description, flatten := false }

/-- An emitted type definition (the structural stand-in for the
per-definition TokenStreams assembled in codegen.rs). -/
inductive TypeDef
  | scalarDef (name : String)
  | inputDef (name : String) (fields : List RenderedField)
  | enumDef (name : String) (variants : List String)
  | fragmentDef (name : String) (fields : List RenderedField)
  | structDef (name : String) (fields : List RenderedField)
  | variablesDef (name : String) (vars : List String)
deriving DecidableEq

/-- The name an emitted type definition declares. -/
def TypeDef.defName : TypeDef → String
  | .scalarDef name => name
  | .inputDef name _ => name
  | .enumDef name _ => name
  | .fragmentDef name _ => name
  | .structDef name _ => name
  | .variablesDef name _ => name

/-- The query context (query.rs is not under src/; the three components
used by the embedded functions are the schema, the fragment map and the
deprecation strategy, as read off their uses in shared.rs/codegen.rs).
Derive handling is omitted: it only decorates emitted types. -/
structure QueryContext where
  schema : Schema
  fragments : List GqlFragment
  deprecation_strategy : DeprecationStrategy

/-- `shared::response_fields_for_selection` (shared.rs lines 94-157),
with the required-flag mutations made explicit: a Field item marks the
inner named type of its schema field when it is referenced (spec section
4.4; the marking call sits in code not under src/), a FragmentSpread item
marks the fragment required. Empty rendered fields (Deny) are filtered
out; the first error aborts. -/
def response_fields_for_selection (type_name : String)
    (schema_fields : List GqlObjectField) (ctx : QueryContext) (prefx : String)
    (st : ReqState) :
    List SelectionItem → Except GenError (List RenderedField × ReqState)
  | [] => .ok ([], st)
  | .field name alias_ _ :: rest =>
    match schema_fields.find? (fun f => f.name == name) with
    | none =>
        .error (.unknownFieldResp name type_name (schema_fields.map (fun f => f.name)))
    | some schema_field =>
        let aliasName := alias_.getD name
        let ty := schema_field.type_.to_rust (toCamelCase prefx ++ toCamelCase aliasName)
        let st' : ReqState :=
          { st with required :=
              ctx.schema.require st.required schema_field.type_.inner_name_str }
        match response_fields_for_selection type_name schema_fields ctx prefx st' rest with
        | .error e => .error e
        | .ok (restFields, st'') =>
            match render_object_field aliasName ty schema_field.description
                schema_field.deprecation ctx.deprecation_strategy with
            | some rf => .ok (rf :: restFields, st'')
            | none => .ok (restFields, st'')
  | .fragmentSpread fragment_name :: rest =>
    let st' : ReqState :=
      { st with required_fragments :=
          if st.required_fragments.contains fragment_name then st.required_fragments
          else fragment_name :: st.required_fragments }
    match response_fields_for_selection type_name schema_fields ctx prefx st' rest with
    | .error e => .error e
    | .ok (restFields, st'') =>
        .ok ({ name := toSnakeCase fragment_name, type_ := .named fragment_name,
               rename := none, deprecation_note := none, doc := none,
               flatten := true } :: restFields, st'')
  | .inlineFragment _ _ :: _ => .error .inlineFragmentNotSupported

mutual

/-- `shared::field_impls_for_selection` (shared.rs lines 65-92): for each
selected field, look it up (failing with the short `could not find field`
error) and expand its inner named type under the extended camel-case
prefix; non-field items contribute nothing. -/
def field_impls_for_selection (ctx : QueryContext) (fields : List GqlObjectField)
    (prefx : String) (st : ReqState) :
    List SelectionItem → Except GenError (List TypeDef × ReqState)
  | [] => .ok ([], st)
  | .field name alias_ sub :: rest =>
    match fields.find? (fun f => f.name == name) with
    | none => .error (.unknownFieldImpl name)
    | some f =>
        let prefx2 := toCamelCase prefx ++ toCamelCase (alias_.getD name)
        match maybe_expand_field ctx f.type_.inner_name_str prefx2 st sub with
        | .error e => .error e
        | .ok (defs, st') =>
            match field_impls_for_selection ctx fields prefx st' rest with
            | .error e => .error e
            | .ok (defs2, st'') => .ok (defs ++ defs2, st'')
  | _ :: rest => field_impls_for_selection ctx fields prefx st rest

/-- Modelled from the spec: `QueryContext::maybe_expand_field` (query.rs
is not under src/): a built-in primitive expands to nothing; a custom
scalar or enum is marked required and expands to nothing; an object type
is resolved recursively, emitting its nested definitions and its own
struct named by the accumulated prefix; any other name is an unknown
type error (spec sections 4.3, 4.4 and 7). -/
def maybe_expand_field (ctx : QueryContext) (ty : String) (prefx : String)
    (st : ReqState) (sel : List SelectionItem) :
    Except GenError (List TypeDef × ReqState) :=
  if builtinScalars.contains ty then .ok ([], st)
  else if ctx.schema.hasScalar ty || ctx.schema.hasEnum ty then
    .ok ([], { st with required := ctx.schema.require st.required ty })
  else
    match ctx.schema.lookupObject ty with
    | some obj =>
        match field_impls_for_selection ctx obj.fields prefx st sel with
        | .error e => .error e
        | .ok (defs, st') =>
            match response_fields_for_selection obj.name obj.fields ctx prefx st' sel with
            | .error e => .error e
            | .ok (respFields, st'') =>
                .ok (defs ++ [.structDef prefx respFields], st'')
    | none => .error (.unknownType ty)

end

/-! ## inputs.rs -/

/-- The byte-lexicographic field-name comparison used by the
`fields.sort_unstable_by(|a, b| a.name.cmp(&b.name))` call of inputs.rs
line 36, as a relation. -/
def byNameLe (a b : GqlObjectField) : Prop := a.name.toList ≤ b.name.toList

instance : DecidableRel byNameLe := fun a b => by
  unfold byNameLe
  infer_instance

instance : IsTotal GqlObjectField byNameLe :=
  ⟨fun a b => le_total a.name.toList b.name.toList⟩

instance : IsTrans GqlObjectField byNameLe :=
  ⟨fun _ _ _ h h2 => le_trans h h2⟩

/-- The loop body of `GqlInput::to_rust` (inputs.rs lines 37-53) for one
field: render the field type, box it when the type is not already
indirected and its inner name equals the own name of the enclosing input
object, snake-case the field name and attach a rename back to the schema
name when they differ. -/
def renderInputField (inpName : String) (field : GqlObjectField) : RenderedField :=
  let ty := field.type_.to_rust ""
  let ty := if field.type_.is_indirected || field.type_.inner_name_str ≠ inpName
    then ty else .boxed ty
  let snake_case_name := toSnakeCase field.name
  { name := snake_case_name, type_ := ty,
    rename := field_rename_annot field.name snake_case_name,
    deprecation_note := none, doc := none, flatten := false }

/-- `GqlInput::to_rust` (inputs.rs lines 33-63): sort the fields by name,
render each with `renderInputField`, and mark the inner named type of
every field required. -/
def GqlInput.to_rust (ctx : QueryContext) (inp : GqlInput) (st : List String) :
    TypeDef × List String :=
  let sorted := List.insertionSort byNameLe inp.fields
  let folded := sorted.foldl
    (fun acc field => (acc.1 ++ [renderInputField inp.name field],
                       ctx.schema.require acc.2 field.type_.inner_name_str)) ([], st)
  (.inputDef inp.name folded.1, folded.2)

/-! ## Remaining synthesized definitions -/

/-- Modelled from the spec: `GqlEnum::to_rust` (enums.rs is not under
src/): a closed set-of-variants type named after the enum, preserving
variant order. -/
def GqlEnum.to_rust (e : GqlEnum) : TypeDef := .enumDef e.name e.variants

/-- Modelled from the spec: `GqlScalar::to_rust` (scalars.rs is not under
src/): an opaque alias named after the scalar. -/
def GqlScalar.to_rust (sc : GqlScalar) : TypeDef := .scalarDef sc.name

/-- Modelled from the spec: `GqlFragment::to_rust` (fragments.rs is not
under src/): resolve the fragment selection against the type it is
declared on and emit a struct named after the fragment. -/
def GqlFragment.to_rust (ctx : QueryContext) (frag : GqlFragment) (st : ReqState) :
    Except GenError (TypeDef × ReqState) :=
  match ctx.schema.lookupObject frag.on_type with
  | none => .error (.unknownType frag.on_type)
  | some obj =>
      match response_fields_for_selection obj.name obj.fields ctx frag.name st
          frag.selection with
      | .error e => .error e
      | .ok (fields, st') => .ok (.fragmentDef frag.name fields, st')

/-! ## Operations and documents -/

inductive OperationType
  | query
  | mutation
  | subscription
deriving DecidableEq

/-- An operation definition (operations.rs is not under src/; the fields
used by codegen.rs and lib.rs are its name, kind, variables and root
selection, as in spec section 3). -/
structure Operation where
  name : String
  operation_type : OperationType
  variables_ : List (String × FieldType)
  selection : List SelectionItem

def Operation.is_subscription (op : Operation) : Bool :=
  op.operation_type = OperationType.subscription

/-- Modelled from the spec: `Operation::root_name` (operations.rs is not
under src/): the schema root type name for the operation kind. -/
def Operation.root_name (op : Operation) (schema : Schema) : String :=
  match op.operation_type with
  | .query => schema.query_type
  | .mutation => schema.mutation_type
  | .subscription => schema.subscription_type

/-- Modelled from the spec: `Operation::expand_variables` (variables.rs
and operations.rs are not under src/): emit the variables struct and mark
the inner named type of every variable required (spec section 4.4: input
object used as a variable type). -/
def Operation.expand_variables (ctx : QueryContext) (op : Operation)
    (st : ReqState) : TypeDef × ReqState :=
  let marked := op.variables_.foldl
    (fun acc v => ctx.schema.require acc v.2.inner_name_str) st.required
  (.variablesDef op.name (op.variables_.map Prod.fst), { st with required := marked })

/-- One definition of a query document: an operation or a fragment. -/
inductive Definition
  | operation (op : Operation)
  | fragment (name : String) (on_type : String) (selection : List SelectionItem)

/-- A parsed query document. -/
abbrev Document := List Definition

/-! ## codegen.rs -/

/-- `codegen::all_operations` (codegen.rs lines 25-34). -/
def all_operations (query : Document) : List Operation :=
  query.filterMap (fun d => match d with
    | .operation op => some op
    | _ => none)

/-- `codegen::select_operation` (codegen.rs lines 11-23): the operation
whose name matches, or else the first one; `none` only when the document
defines no operation. -/
def select_operation (query : Document) (struct_name : String) : Option Operation :=
  let operations := all_operations query
  (operations.find? (fun op => op.name == struct_name)).orElse
    (fun _ => operations.head?)

/-- The per-category definition lists and top-level structs produced for
one operation. -/
structure ModuleParts where
  scalar_defs : List TypeDef
  input_defs : List TypeDef
  enum_defs : List TypeDef
  fragment_defs : List TypeDef
  definitions : List TypeDef
  variables_struct : TypeDef
  response_data : TypeDef
deriving DecidableEq

/-- The fragment-definition collection of codegen.rs lines 103-114: walk
the fragment map, rendering each fragment whose flag is set at the moment
it is examined (rendering may set flags of fragments examined later). -/
def render_fragments (ctx : QueryContext) :
    List GqlFragment → ReqState → Except GenError (List TypeDef × ReqState)
  | [], st => .ok ([], st)
  | f :: rest, st =>
    if st.required_fragments.contains f.name then
      match GqlFragment.to_rust ctx f st with
      | .error e => .error e
      | .ok (d, st') =>
          match render_fragments ctx rest st' with
          | .error e => .error e
          | .ok (ds, st'') => .ok (d :: ds, st'')
    else render_fragments ctx rest st

/-- The input-object-definition collection of codegen.rs lines 118-130:
walk the input map, rendering each input object whose flag is set at the
moment it is examined (rendering marks the field types of the rendered
input object). -/
def render_inputs (ctx : QueryContext) :
    List GqlInput → ReqState → List TypeDef × ReqState
  | [], st => ([], st)
  | i :: rest, st =>
    if st.required.contains i.name then
      let rendered := GqlInput.to_rust ctx i st.required
      let next := render_inputs ctx rest { st with required := rendered.2 }
      (rendered.1 :: next.1, next.2)
    else render_inputs ctx rest st

/-- `codegen::response_for_query` (codegen.rs lines 37-186) with the
required-flag state made explicit. Stages in source evaluation order:
ingest the document fragments into the context; look up the root object
(the source panics when it is absent — modelled as the
`missingRootObject` error); reject multi-field subscription roots; expand
the nested definitions and the response fields of the root selection;
collect the required fragments; expand the variables struct; collect the
required input objects; collect the required scalars; finally collect
the required enums (the enum iterator of codegen.rs line 96 is lazy and
is only consumed inside the final quote!, hence it observes the final
flag state). -/
def response_for_query (schema : Schema) (query : Document) (operation : Operation)
    (deprecation_strategy : DeprecationStrategy) (multiple_operation : Bool)
    (st : ReqState) : Except GenError (ModuleParts × ReqState) :=
  let frags := query.filterMap (fun d => match d with
    | .fragment name on_type selection => some (⟨name, on_type, selection⟩ : GqlFragment)
    | _ => none)
  let context : QueryContext :=
    { schema := schema, fragments := frags, deprecation_strategy := deprecation_strategy }
  let root_name := operation.root_name schema
  match schema.lookupObject root_name with
  | none => .error (.missingRootObject root_name)
  | some definition =>
    if operation.is_subscription && decide (1 < operation.selection.length) then
      .error .multipleSubscriptionFields
    else
      match field_impls_for_selection context definition.fields operation.name st
          operation.selection with
      | .error e => .error e
      | .ok (definitions, st1) =>
        match response_fields_for_selection definition.name definition.fields context
            operation.name st1 operation.selection with
        | .error e => .error e
        | .ok (response_data_fields, st2) =>
          match render_fragments context context.fragments st2 with
          | .error e => .error e
          | .ok (fragment_definitions, st3) =>
            let expanded := operation.expand_variables context st3
            let st4 := expanded.2
            let rendered_inputs := render_inputs context schema.inputs st4
            let st5 := rendered_inputs.2
            let scalar_definitions := (schema.scalars.filter
              (fun sc => st5.required.contains sc.name)).map GqlScalar.to_rust
            let enum_definitions := (schema.enums.filter
              (fun e => st5.required.contains e.name)).map GqlEnum.to_rust
            let respons_data_struct_name :=
              if multiple_operation then operation.name ++ "ResponseData"
              else "ResponseData"
            .ok ({ scalar_defs := scalar_definitions,
                   input_defs := rendered_inputs.1,
                   enum_defs := enum_definitions,
                   fragment_defs := fragment_definitions,
                   definitions := definitions,
                   variables_struct := expanded.1,
                   response_data := .structDef respons_data_struct_name
                     response_data_fields }, st5)

/-! ## lib.rs -/

/-- The operation-selection step of `generate_module_token_stream`
(lib.rs lines 109-119): with an operation name configured, take the
single operation `select_operation` yields, falling back to every
operation of the document only when it yields nothing; without a
configured name, take every operation. -/
def generate_module_operations (query : Document) (operation_name : Option String) :
    List Operation :=
  match operation_name with
  | some nm =>
      match select_operation query nm with
      | some op => [op]
      | none => all_operations query
  | none => all_operations query

/-! ## Accessors used by the statements -/

/-- The rendered struct fields carried by a type definition. -/
def TypeDef.defFields : TypeDef → List RenderedField
  | .inputDef _ fs => fs
  | .fragmentDef _ fs => fs
  | .structDef _ fs => fs
  | _ => []

/-- The wire name a rendered field (de)serializes under: the serde rename
target when present, else the emitted identifier itself. For a field
rendered from an input object this recovers the schema field name. -/
def RenderedField.wireName (rf : RenderedField) : String :=
  rf.rename.getD rf.name

/-- Membership of one string in another, as lists of characters. -/
def strIncludes (hay needle : String) : Prop :=
  needle.toList <:+: hay.toList

instance (hay needle : String) : Decidable (strIncludes hay needle) := by
  unfold strIncludes
  infer_instance

/-! ## Concrete instances used by witnesses and counterexamples -/

/-- A self-referential and mutually-recursive input object: field `a` has
type `A` (its own name), field `b` has type `B`. -/
def inputSelfA : GqlInput :=
  { description := none, name := "A",
    fields := [⟨none, "a", .named "A", .current⟩, ⟨none, "b", .named "B", .current⟩] }

/-- The partner of `inputSelfA`: field `a` has type `A`, closing the
mutual-recursion cycle A -> B -> A. -/
def inputMutB : GqlInput :=
  { description := none, name := "B", fields := [⟨none, "a", .named "A", .current⟩] }

/-- A schema whose input objects form a cycle. -/
def cyclicSchema : Schema :=
  { objects := [], inputs := [inputSelfA, inputMutB], enums := [], scalars := [],
    query_type := "Query", mutation_type := "Mutation", subscription_type := "Subscription" }

/-- Context over the cyclic schema. -/
def ctxAB : QueryContext :=
  { schema := cyclicSchema, fragments := [], deprecation_strategy := .allow }

/-- An empty schema. -/
def emptySchema : Schema :=
  { objects := [], inputs := [], enums := [], scalars := [],
    query_type := "Query", mutation_type := "Mutation", subscription_type := "Subscription" }

/-- Context over the empty schema with the Allow strategy. -/
def ctx0 : QueryContext :=
  { schema := emptySchema, fragments := [], deprecation_strategy := .allow }

/-- Context over the empty schema with the Deny strategy. -/
def ctxDeny : QueryContext :=
  { schema := emptySchema, fragments := [], deprecation_strategy := .deny }

/-- The field list of a `Cat` object type (the running example of the
inputs.rs test and of spec section 8). -/
def catFields : List GqlObjectField :=
  [⟨none, "pawsCount", .named "Float", .current⟩,
   ⟨none, "offsprings", .vector (.named "Cat"), .current⟩,
   ⟨none, "requirements", .optional (.named "CatRequirements"), .current⟩]

/-- The `Cat` input object of the inputs.rs test. -/
def catInput : GqlInput :=
  { description := none, name := "Cat", fields := catFields }

/-- The `Cat` input object with its fields listed in a different order
(as another hash-map iteration order would present them). -/
def catInputPerm : GqlInput :=
  { description := none, name := "Cat",
    fields := [⟨none, "requirements", .optional (.named "CatRequirements"), .current⟩,
               ⟨none, "pawsCount", .named "Float", .current⟩,
               ⟨none, "offsprings", .vector (.named "Cat"), .current⟩] }

/-- Operations named A and B with empty selections, and a document
declaring both, for exercising operation selection. -/
def opA : Operation := { name := "A", operation_type := .query, variables_ := [], selection := [] }

def opB : Operation := { name := "B", operation_type := .query, variables_ := [], selection := [] }

def docAB : Document := [.operation opA, .operation opB]

/-- A schema whose subscription root object `Sub` has two scalar fields. -/
def subSchema : Schema :=
  { objects := [⟨"Sub", [⟨none, "a", .named "Float", .current⟩,
                         ⟨none, "b", .named "Float", .current⟩]⟩],
    inputs := [], enums := [], scalars := [],
    query_type := "Query", mutation_type := "Mutation", subscription_type := "Sub" }

/-- A subscription operation selecting two top-level fields. -/
def opSub2 : Operation :=
  { name := "S", operation_type := .subscription, variables_ := [],
    selection := [.field "a" none [], .field "b" none []] }

/-- A subscription operation selecting exactly one top-level field. -/
def opSub1 : Operation :=
  { name := "S", operation_type := .subscription, variables_ := [],
    selection := [.field "a" none []] }

/-- A schema with one root object, one enum and one unreferenced enum,
for exercising the required-flag filter. -/
def q8Schema : Schema :=
  { objects := [⟨"Query", [⟨none, "x", .named "Color", .current⟩]⟩],
    inputs := [], enums := [⟨"Color", ["RED", "GREEN"]⟩, ⟨"Unused", ["U"]⟩],
    scalars := [],
    query_type := "Query", mutation_type := "Mutation", subscription_type := "Subscription" }

/-- A query operation selecting the enum-typed field `x`. -/
def opQ8 : Operation :=
  { name := "Q", operation_type := .query, variables_ := [], selection := [.field "x" none []] }

/-- The module parts produced for `opQ8` against `q8Schema`: only the
reachable enum Color is emitted, the unreferenced enum is not. -/
def parts8 : ModuleParts :=
  { scalar_defs := [], input_defs := [],
    enum_defs := [.enumDef "Color" ["RED", "GREEN"]],
    fragment_defs := [], definitions := [],
    variables_struct := .variablesDef "Q" [],
    response_data := .structDef "ResponseData"
      [{ name := "x", type_ := .named "Color", rename := none,
         deprecation_note := none, doc := none, flatten := false }] }

/-! ## Lemmas about the marking worklist -/

/-- Names already marked stay marked, whatever the fuel and worklist. -/
theorem mem_requireAuxF_of_mem (s : Schema) :
    ∀ (fuel : Nat) (st ws : List String) (x : String),
      x ∈ st → x ∈ requireAuxF s fuel st ws := by
  intro fuel
  induction fuel with
  | zero => intro st ws x hx; simpa [requireAuxF] using hx
  | succ f ih =>
    intro st ws x hx
    cases ws with
    | nil => simpa [requireAuxF] using hx
    | cons n rest =>
      rw [requireAuxF]
      split
      · exact ih st rest x hx
      · cases hli : s.lookupInput n with
        | some inp => simp only [hli]; exact ih _ _ x (List.mem_cons_of_mem _ hx)
        | none =>
          simp only [hli]
          split
          · exact ih _ _ x (List.mem_cons_of_mem _ hx)
          · exact ih _ _ x hx

/-- Marking one more name cannot increase the total field count of
unmarked input objects. -/
theorem sumUnmarkedList_cons_le (n : String) :
    ∀ (l : List GqlInput) (st : List String),
      ((l.filter (fun i => !((n :: st).contains i.name))).map
        (fun i => i.fields.length)).sum ≤
      ((l.filter (fun i => !(st.contains i.name))).map
        (fun i => i.fields.length)).sum := by
  intro l
  induction l with
  | nil => intro st; simp
  | cons i rest ih =>
    intro st
    have h := ih st
    cases hst : st.contains i.name with
    | true =>
      have hcons : (n :: st).contains i.name = true := by
        simp only [List.contains_cons]
        simp [show i.name ∈ st by simpa using hst]
      simp only [List.filter_cons, hst, hcons, Bool.not_true]
      simpa using h
    | false =>
      cases hc : (n :: st).contains i.name with
      | true =>
        simp only [List.filter_cons, hst, hc, Bool.not_true, Bool.not_false,
          if_pos, List.map_cons, List.sum_cons]
        simp only [Bool.false_eq_true, if_false]
        omega
      | false =>
        simp only [List.filter_cons, hst, hc, Bool.not_false, if_pos,
          List.map_cons, List.sum_cons]
        omega

/-- Marking a not-yet-marked input object removes at least its own field
count from the potential. -/
theorem sumUnmarkedList_drop (inp : GqlInput) :
    ∀ (l : List GqlInput) (st : List String), inp ∈ l →
      st.contains inp.name = false →
      inp.fields.length +
        ((l.filter (fun i => !((inp.name :: st).contains i.name))).map
          (fun i => i.fields.length)).sum ≤
      ((l.filter (fun i => !(st.contains i.name))).map
        (fun i => i.fields.length)).sum := by
  intro l
  induction l with
  | nil => intro st h; simp at h
  | cons j rest ih =>
    intro st hmem hst
    rcases List.mem_cons.mp hmem with rfl | hj
    · have hcons : (inp.name :: st).contains inp.name = true := by
        simp [List.contains_cons]
      have h := sumUnmarkedList_cons_le inp.name rest st
      simp only [List.filter_cons, hst, hcons, Bool.not_true, Bool.not_false,
        if_pos, List.map_cons, List.sum_cons]
      simp only [Bool.false_eq_true, if_false]
      omega
    · have h := ih st hj hst
      cases hstj : st.contains j.name with
      | true =>
        have hcons : (inp.name :: st).contains j.name = true := by
          simp only [List.contains_cons]
          simp [show j.name ∈ st by simpa using hstj]
        simp only [List.filter_cons, hstj, hcons, Bool.not_true]
        simpa using h
      | false =>
        cases hc : (inp.name :: st).contains j.name with
        | true =>
          simp only [List.filter_cons, hstj, hc, Bool.not_true, Bool.not_false,
            if_pos, List.map_cons, List.sum_cons]
          simp only [Bool.false_eq_true, if_false]
          omega
        | false =>
          simp only [List.filter_cons, hstj, hc, Bool.not_false, if_pos,
            List.map_cons, List.sum_cons]
          omega

theorem sumUnmarked_cons_le (s : Schema) (n : String) (st : List String) :
    sumUnmarked s (n :: st) ≤ sumUnmarked s st :=
  sumUnmarkedList_cons_le n s.inputs st

theorem sumUnmarked_lookup (s : Schema) {n : String} {inp : GqlInput}
    {st : List String} (h : s.lookupInput n = some inp)
    (hc : st.contains n = false) :
    inp.fields.length + sumUnmarked s (n :: st) ≤ sumUnmarked s st := by
  have hmem : inp ∈ s.inputs := List.mem_of_find?_eq_some h
  have hname : inp.name = n := by
    have := List.find?_some h
    simpa using this
  subst hname
  exact sumUnmarkedList_drop inp s.inputs st hmem hc

/-- Running the worklist with no fuel, or on an empty worklist, changes
nothing. -/
theorem requireAuxF_nil (s : Schema) (g : Nat) (st : List String) :
    requireAuxF s g st [] = st := by
  cases g <;> simp [requireAuxF]

/-- Any two sufficient fuels give the same marking result: the worklist
run reaches a fixed answer after finitely many steps on every schema,
cyclic input objects included. -/
theorem requireAuxF_stable (s : Schema) :
    ∀ (f g : Nat) (st ws : List String),
      requireFuel s st ws ≤ f → requireFuel s st ws ≤ g →
      requireAuxF s f st ws = requireAuxF s g st ws := by
  intro f
  induction f with
  | zero =>
    intro g st ws hf _
    have hws : ws = [] := by
      simp only [requireFuel] at hf
      cases ws with
      | nil => rfl
      | cons a l => simp at hf
    subst hws
    simp [requireAuxF, requireAuxF_nil]
  | succ f ih =>
    intro g st ws hf hg
    cases ws with
    | nil => simp [requireAuxF_nil]
    | cons n rest =>
      have hg1 : 1 ≤ g := by
        simp only [requireFuel, List.length_cons] at hg
        omega
      cases g with
      | zero => omega
      | succ g =>
        simp only [requireFuel, List.length_cons] at hf hg
        rw [requireAuxF, requireAuxF]
        split
        · exact ih g st rest (by simp only [requireFuel]; omega)
            (by simp only [requireFuel]; omega)
        · rename_i hcont
          cases hli : s.lookupInput n with
          | some inp =>
            simp only [hli]
            have hdrop := sumUnmarked_lookup s hli (by simpa using hcont)
            exact ih g (n :: st) _
              (by simp only [requireFuel, List.length_append, List.length_map]; omega)
              (by simp only [requireFuel, List.length_append, List.length_map]; omega)
          | none =>
            simp only [hli]
            split
            · have hle := sumUnmarked_cons_le s n st
              exact ih g (n :: st) rest
                (by simp only [requireFuel]; omega)
                (by simp only [requireFuel]; omega)
            · exact ih g st rest (by simp only [requireFuel]; omega)
                (by simp only [requireFuel]; omega)

/-- A worklist name that refers to a flaggable entity ends up marked,
provided the fuel is sufficient. -/
theorem mem_requireAuxF_of_mem_ws (s : Schema) :
    ∀ (f : Nat) (st ws : List String), requireFuel s st ws ≤ f →
      ∀ x ∈ ws, s.isEntity x = true → x ∈ requireAuxF s f st ws := by
  intro f
  induction f with
  | zero =>
    intro st ws hf x hx _
    simp only [requireFuel] at hf
    cases ws with
    | nil => simp at hx
    | cons a l => simp at hf
  | succ f ih =>
    intro st ws hf x hx hent
    cases ws with
    | nil => simp at hx
    | cons n rest =>
      simp only [requireFuel, List.length_cons] at hf
      rw [requireAuxF]
      rcases List.mem_cons.mp hx with rfl | hxr
      · -- the target is the head of the worklist
        split
        · rename_i hcont
          exact mem_requireAuxF_of_mem s f st rest x (by simpa using hcont)
        · rename_i hcont
          cases hli : s.lookupInput x with
          | some inp =>
            simp only [hli]
            exact mem_requireAuxF_of_mem s f _ _ x (List.mem_cons_self x st)
          | none =>
            simp only [hli]
            split
            · exact mem_requireAuxF_of_mem s f _ _ x (List.mem_cons_self x st)
            · rename_i hnone
              exfalso
              simp only [Schema.isEntity, hli, Option.isSome_none,
                Bool.false_or, Bool.or_eq_true] at hent
              rcases hent with h | h <;> simp [h] at hnone
      · -- the target sits in the tail of the worklist
        split
        · exact ih st rest (by simp only [requireFuel]; omega) x hxr hent
        · rename_i hcont
          cases hli : s.lookupInput n with
          | some inp =>
            simp only [hli]
            have hdrop := sumUnmarked_lookup s hli (by simpa using hcont)
            exact ih (n :: st) _
              (by simp only [requireFuel, List.length_append, List.length_map]; omega)
              x (List.mem_append_right _ hxr) hent
          | none =>
            simp only [hli]
            split
            · have hle := sumUnmarked_cons_le s n st
              exact ih (n :: st) rest (by simp only [requireFuel]; omega) x hxr hent
            · exact ih st rest (by simp only [requireFuel]; omega) x hxr hent

/-- Names already marked survive a `requireAux` run. -/
theorem subset_requireAux (s : Schema) (st ws : List String) :
    ∀ x ∈ st, x ∈ requireAux s st ws :=
  fun x hx => mem_requireAuxF_of_mem s _ st ws x hx

/-- Worklist entities end up marked by `requireAux`. -/
theorem mem_requireAux_of_ws (s : Schema) (st ws : List String) :
    ∀ x ∈ ws, s.isEntity x = true → x ∈ requireAux s st ws :=
  fun x hx hent => mem_requireAuxF_of_mem_ws s _ st ws (le_refl _) x hx hent

/-- Names already marked survive `Schema.require`. -/
theorem subset_schema_require (s : Schema) (st : List String) (n : String) :
    ∀ x ∈ st, x ∈ s.require st n :=
  subset_requireAux s st [n]

/-- A flaggable entity is marked by requiring it. -/
theorem mem_schema_require (s : Schema) (st : List String) (n : String)
    (h : s.isEntity n = true) : n ∈ s.require st n :=
  mem_requireAux_of_ws s st [n] n (List.mem_singleton.mpr rfl) h

/-- Requiring an input object marks its own name. -/
theorem gqlinput_require_mem_self (s : Schema) (inp : GqlInput) (st : List String) :
    inp.name ∈ GqlInput.require s inp st := by
  unfold GqlInput.require
  split
  · rename_i h
    simpa using h
  · exact subset_requireAux s _ _ inp.name (List.mem_cons_self _ _)

/-- Requiring an input object whose flag is already set is the identity. -/
theorem gqlinput_require_of_contains (s : Schema) (inp : GqlInput) (st : List String)
    (h : st.contains inp.name = true) : GqlInput.require s inp st = st := by
  unfold GqlInput.require
  rw [if_pos h]

/-- C9, part: a second `GqlInput::require` on the already-required input
object short-circuits and changes nothing. -/
theorem gqlinput_require_idem (s : Schema) (inp : GqlInput) (st : List String) :
    GqlInput.require s inp (GqlInput.require s inp st) = GqlInput.require s inp st :=
  gqlinput_require_of_contains s inp _
    (by simpa using gqlinput_require_mem_self s inp st)

/-- C9, part: one call marks the inner named type of every field that
names a flaggable schema entity. -/
theorem gqlinput_require_marks (s : Schema) (inp : GqlInput) (st : List String)
    (h : st.contains inp.name = false) :
    ∀ fd ∈ inp.fields, s.isEntity fd.type_.inner_name_str = true →
      fd.type_.inner_name_str ∈ GqlInput.require s inp st := by
  intro fd hfd hent
  unfold GqlInput.require
  rw [if_neg (by simpa using h)]
  exact mem_requireAux_of_ws s _ _ _ (List.mem_map_of_mem _ hfd) hent

/-- C9: `GqlInput::require` terminates on every schema, including cyclic
or self-referential input objects — the marking worklist stabilizes at
the same answer under any sufficient fuel, because an already-marked name
short-circuits instead of recursing; it is idempotent — a second call on
an already-required input object changes nothing; and a single call (from
a state in which the input object is not yet marked) marks the input
object itself and the inner named type of every one of its fields that
names a flaggable schema entity. -/
theorem c9_require_terminates_idempotent_and_marks (s : Schema) (inp : GqlInput)
    (st : List String) :
    (∀ f, requireFuel s st [inp.name] ≤ f →
      requireAuxF s f st [inp.name] = Schema.require s st inp.name) ∧
    GqlInput.require s inp (GqlInput.require s inp st) = GqlInput.require s inp st ∧
    inp.name ∈ GqlInput.require s inp st ∧
    (st.contains inp.name = false →
      ∀ fd ∈ inp.fields, s.isEntity fd.type_.inner_name_str = true →
        fd.type_.inner_name_str ∈ GqlInput.require s inp st) :=
  ⟨fun f hf => requireAuxF_stable s f _ st [inp.name] hf (le_refl _),
   gqlinput_require_idem s inp st,
   gqlinput_require_mem_self s inp st,
   fun h => gqlinput_require_marks s inp st h⟩

/-- Witness for C9 on the cyclic schema A -> A, A -> B -> A: extra fuel
changes nothing, the call is idempotent, and one call on `A` marks `A`
and the inner types `A` and `B` of its fields. -/
theorem c9_witness :
    requireAuxF cyclicSchema 50 [] ["A"] = Schema.require cyclicSchema [] "A" ∧
    GqlInput.require cyclicSchema inputSelfA
        (GqlInput.require cyclicSchema inputSelfA []) =
      GqlInput.require cyclicSchema inputSelfA [] ∧
    "A" ∈ GqlInput.require cyclicSchema inputSelfA [] ∧
    "B" ∈ GqlInput.require cyclicSchema inputSelfA [] := by
  obtain ⟨h1, h2, h3, h4⟩ := c9_require_terminates_idempotent_and_marks cyclicSchema inputSelfA []
  refine ⟨h1 50 (by decide), h2, h3, ?_⟩
  exact h4 (by decide) ⟨none, "b", .named "B", .current⟩ (by decide) (by decide)

/-- C1: evaluation at the failing input. The document declares operations
A and B; the configured operation name C matches neither. The options doc
comment in lib.rs (and the spec) promise a fall-back to compiling every
operation, but `select_operation` itself already falls back to the first
operation, so the generate step receives `some A` and compiles only A;
its own every-operation branch is reachable only for documents with zero
operations. -/
theorem c1_unmatched_name_compiles_only_first :
    select_operation docAB "C" = some opA ∧
    generate_module_operations docAB (some "C") = [opA] ∧
    generate_module_operations docAB (some "C") ≠ all_operations docAB ∧
    all_operations docAB = [opA, opB] := by
  refine ⟨rfl, rfl, ?_, rfl⟩
  intro h
  have h2 : ([opA] : List Operation) = [opA, opB] := by
    calc ([opA] : List Operation)
        = generate_module_operations docAB (some "C") := rfl
      _ = all_operations docAB := h
      _ = [opA, opB] := rfl
  simp at h2

/-! ## Lemmas about GqlInput.to_rust -/

/-- Equal character lists mean equal strings. -/
theorem string_toList_inj {s t : String} (h : s.toList = t.toList) : s = t := by
  cases s with
  | mk d1 =>
    cases t with
    | mk d2 =>
      simp only [String.toList] at h
      exact congrArg String.mk h

/-- The rendered-field component of the `GqlInput::to_rust` fold. -/
theorem to_rust_foldl_fst (ctx : QueryContext) (inpName : String) :
    ∀ (l : List GqlObjectField) (acc : List RenderedField) (stacc : List String),
      (l.foldl (fun acc field => (acc.1 ++ [renderInputField inpName field],
          ctx.schema.require acc.2 field.type_.inner_name_str)) (acc, stacc)).1 =
        acc ++ l.map (renderInputField inpName) := by
  intro l
  induction l with
  | nil => intro acc stacc; simp
  | cons f rest ih =>
    intro acc stacc
    simp only [List.foldl_cons, List.map_cons]
    rw [ih]
    simp

/-- `GqlInput::to_rust` emits exactly the sorted fields, rendered. -/
theorem gqlinput_to_rust_fields (ctx : QueryContext) (inp : GqlInput) (st : List String) :
    (GqlInput.to_rust ctx inp st).1 =
      .inputDef inp.name
        ((List.insertionSort byNameLe inp.fields).map (renderInputField inp.name)) := by
  unfold GqlInput.to_rust
  simp only [to_rust_foldl_fst ctx inp.name (List.insertionSort byNameLe inp.fields) [] st,
    List.nil_append]

/-- The wire name of a rendered input field is the schema field name. -/
theorem wireName_renderInputField (inpName : String) (f : GqlObjectField) :
    (renderInputField inpName f).wireName = f.name := by
  unfold renderInputField RenderedField.wireName field_rename_annot
  by_cases h : f.name ≠ toSnakeCase f.name
  · simp [h]
  · simp only [if_neg h]
    simp only [not_not] at h
    simp [← h]

/-- Two sorted lists of fields that are permutations of each other and
have pairwise-distinct names are equal. -/
theorem sorted_perm_nodup_eq :
    ∀ (l₁ l₂ : List GqlObjectField), l₁.Perm l₂ → l₁.Sorted byNameLe →
      l₂.Sorted byNameLe → (l₁.map GqlObjectField.name).Nodup → l₁ = l₂ := by
  intro l₁
  induction l₁ with
  | nil =>
    intro l₂ hp _ _ _
    exact (List.Perm.nil_eq hp).symm ▸ rfl
  | cons a t ih =>
    intro l₂ hp hs1 hs2 hnd
    rw [List.map_cons] at hnd
    obtain ⟨hnotin, hndt⟩ := List.nodup_cons.mp hnd
    cases l₂ with
    | nil => exact absurd hp.symm (by simp)
    | cons b t₂ =>
      by_cases hab : a = b
      · subst hab
        have hp' := hp.cons_inv
        have := ih t₂ hp' (List.Sorted.of_cons hs1) (List.Sorted.of_cons hs2) hndt
        rw [this]
      · exfalso
        have hbmem : b ∈ t := by
          have : b ∈ a :: t := hp.symm.subset (List.mem_cons_self b t₂)
          rcases List.mem_cons.mp this with h | h
          · exact absurd h.symm hab
          · exact h
        have hamem : a ∈ t₂ := by
          have : a ∈ b :: t₂ := hp.subset (List.mem_cons_self a t)
          rcases List.mem_cons.mp this with h | h
          · exact absurd h hab
          · exact h
        have h1 : byNameLe a b := List.rel_of_sorted_cons hs1 b hbmem
        have h2 : byNameLe b a := List.rel_of_sorted_cons hs2 a hamem
        have hname : a.name = b.name := string_toList_inj (le_antisymm h1 h2)
        have : a.name ∈ t.map GqlObjectField.name := by
          rw [hname]
          exact List.mem_map_of_mem _ hbmem
        exact hnotin this

/-- C10: the fields of the type `GqlInput::to_rust` synthesizes appear in
ascending lexicographic order of their schema field names (recovered as
the wire name of each rendered field); the emitted fields are exactly a
permutation of the declared fields; and for distinct field names any
other presentation order of the same fields — another hash-map iteration
order — produces the identical definition. -/
theorem c10_input_fields_sorted_and_deterministic (ctx : QueryContext)
    (inp : GqlInput) (st : List String) :
    ∃ fields, (GqlInput.to_rust ctx inp st).1 = .inputDef inp.name fields ∧
      fields.Pairwise (fun a b : RenderedField => a.wireName.toList ≤ b.wireName.toList) ∧
      (fields.map RenderedField.wireName).Perm (inp.fields.map GqlObjectField.name) ∧
      ∀ (inp2 : GqlInput), inp2.name = inp.name → inp2.fields.Perm inp.fields →
        (inp.fields.map GqlObjectField.name).Nodup →
        (GqlInput.to_rust ctx inp2 st).1 = (GqlInput.to_rust ctx inp st).1 := by
  refine ⟨(List.insertionSort byNameLe inp.fields).map (renderInputField inp.name),
    gqlinput_to_rust_fields ctx inp st, ?_, ?_, ?_⟩
  · rw [List.pairwise_map]
    have hs := List.sorted_insertionSort byNameLe inp.fields
    refine hs.imp ?_
    intro a b h
    rw [wireName_renderInputField, wireName_renderInputField]
    exact h
  · have : ((List.insertionSort byNameLe inp.fields).map
        (renderInputField inp.name)).map RenderedField.wireName =
        (List.insertionSort byNameLe inp.fields).map GqlObjectField.name := by
      rw [List.map_map]
      exact List.map_congr_left (fun a _ => wireName_renderInputField inp.name a)
    rw [this]
    exact (List.perm_insertionSort byNameLe inp.fields).map GqlObjectField.name
  · intro inp2 hname hperm hnd
    rw [gqlinput_to_rust_fields, gqlinput_to_rust_fields, hname]
    have hsorteq : List.insertionSort byNameLe inp2.fields =
        List.insertionSort byNameLe inp.fields := by
      apply sorted_perm_nodup_eq
      · exact ((List.perm_insertionSort byNameLe inp2.fields).trans hperm).trans
          (List.perm_insertionSort byNameLe inp.fields).symm
      · exact List.sorted_insertionSort byNameLe inp2.fields
      · exact List.sorted_insertionSort byNameLe inp.fields
      · have : ((List.insertionSort byNameLe inp2.fields).map GqlObjectField.name).Perm
            (inp.fields.map GqlObjectField.name) :=
          ((List.perm_insertionSort byNameLe inp2.fields).trans hperm).map _
        exact this.nodup_iff.mpr hnd
    rw [hsorteq]

/-- Witness for C10: the Cat input object of the inputs.rs test. Its
emitted field order is offsprings, pawsCount, requirements — ascending in
the schema names — and presenting the same fields in a rotated order
yields the identical definition. -/
theorem c10_witness :
    (GqlInput.to_rust ctx0 catInput []).1 =
      .inputDef "Cat"
        [{ name := "offsprings", type_ := .vec (.named "Cat"), rename := none,
           deprecation_note := none, doc := none, flatten := false },
         { name := "paws_count", type_ := .named "Float", rename := some "pawsCount",
           deprecation_note := none, doc := none, flatten := false },
         { name := "requirements", type_ := .option (.named "CatRequirements"),
           rename := none, deprecation_note := none, doc := none, flatten := false }] ∧
    catInputPerm.fields.Perm catInput.fields ∧
    (catInput.fields.map GqlObjectField.name).Nodup ∧
    (GqlInput.to_rust ctx0 catInputPerm []).1 = (GqlInput.to_rust ctx0 catInput []).1 := by
  obtain ⟨fields, heq, hpair, hperm, hdet⟩ :=
    c10_input_fields_sorted_and_deterministic ctx0 catInput []
  refine ⟨by decide, by decide, by decide, ?_⟩
  exact hdet catInputPerm (by decide) (by decide) (by decide)

/-- C2 counterexample: the input objects A and B are mutually recursive
(A.b : B, B.a : A), yet the rendered field `a` of B keeps the direct type
`A` with no heap indirection — the boxing condition compares the inner
name only against the enclosing own name, so a mutual-recursion cycle
receives no indirect storage at its recursive fields (in Rust this is an
infinitely-sized type). -/
theorem c2_counterexample_mutual_recursion_not_boxed :
    (GqlInput.to_rust ctxAB inputMutB []).1 =
      .inputDef "B"
        [{ name := "a", type_ := .named "A", rename := none,
           deprecation_note := none, doc := none, flatten := false }] ∧
    ∀ t, RustType.named "A" ≠ RustType.boxed t := by
  constructor
  · decide
  · intro t h
    exact RustType.noConfusion h

/-- C2 (amended): for every input object field, the emitted type is
wrapped in Box exactly when the inner named type equals the enclosing
input object own name and the field type is not already indirected; in
particular directly self-referential fields are boxed, but the recursive
fields of mutually-recursive input objects are not indirected. -/
theorem c2_amended_boxing_rule (ctx : QueryContext) (inp : GqlInput)
    (st : List String) :
    ∀ f ∈ inp.fields, ∃ rf ∈ (GqlInput.to_rust ctx inp st).1.defFields,
      rf.wireName = f.name ∧
      rf.type_ = (if f.type_.is_indirected || f.type_.inner_name_str ≠ inp.name
                  then f.type_.to_rust "" else .boxed (f.type_.to_rust "")) := by
  intro f hf
  have hsortmem : f ∈ List.insertionSort byNameLe inp.fields :=
    ((List.perm_insertionSort byNameLe inp.fields).mem_iff).mpr hf
  refine ⟨renderInputField inp.name f, ?_, wireName_renderInputField inp.name f, ?_⟩
  · rw [gqlinput_to_rust_fields]
    exact List.mem_map_of_mem _ hsortmem
  · rfl

/-- Witness for C2: the directly self-referential field `a : A` of the
input object A is emitted with Box indirection. -/
theorem c2_witness :
    ((⟨none, "a", FieldType.named "A", DeprecationStatus.current⟩ : GqlObjectField)
        ∈ inputSelfA.fields) ∧
    ∃ rf ∈ (GqlInput.to_rust ctxAB inputSelfA []).1.defFields,
      rf.wireName = "a" ∧
      rf.type_ = (if (FieldType.named "A").is_indirected
                    || (FieldType.named "A").inner_name_str ≠ inputSelfA.name
                  then (FieldType.named "A").to_rust ""
                  else .boxed ((FieldType.named "A").to_rust "")) :=
  ⟨by decide,
   c2_amended_boxing_rule ctxAB inputSelfA []
     ⟨none, "a", FieldType.named "A", DeprecationStatus.current⟩ (by decide)⟩

/-! ## Lemmas about render_object_field -/

/-- The complete naming behavior of a rendered (non-dropped) field: the
reserved check is made on the raw output name; a reserved raw name is
escaped by appending an underscore (without case conversion) and renamed
back to the raw name; a non-reserved raw name is snake-cased and renamed
exactly when the conversion changed it. -/
theorem render_object_field_shape (fn : String) (ty : RustType) (d : Option String)
    (status : DeprecationStatus) (strat : DeprecationStrategy) (rf : RenderedField)
    (h : render_object_field fn ty d status strat = some rf) :
    rf.type_ = ty ∧ rf.doc = d ∧ rf.flatten = false ∧
    (reserved.contains fn = true → rf.name = fn ++ "_" ∧ rf.rename = some fn) ∧
    (reserved.contains fn = false →
      rf.name = toSnakeCase fn ∧ rf.rename = field_rename_annot fn (toSnakeCase fn)) := by
  cases status <;> cases strat <;> simp only [render_object_field] at h
  all_goals first
  | exact Option.noConfusion h
  | (split at h <;> rename_i hres <;> obtain rfl := Option.some.inj h
     · exact ⟨rfl, rfl, rfl, fun _ => ⟨rfl, rfl⟩, fun hf => absurd hres (by rw [hf]; simp)⟩
     · exact ⟨rfl, rfl, rfl, fun ht => absurd ht hres,
         fun _ => ⟨rfl, rfl⟩⟩)

/-- C3 counterexample: for the output name Type the case-converted name
`type` collides with a reserved keyword, yet the emitted field is named
`type` with no escape suffix — the reserved check runs on the raw name
before case conversion, so the collision goes unescaped. -/
theorem c3_counterexample_converted_keyword_not_escaped :
    render_object_field "Type" (.named "X") none .current .allow =
      some { name := "type", type_ := .named "X", rename := some "Type",
             deprecation_note := none, doc := none, flatten := false } ∧
    toSnakeCase "Type" = "type" ∧
    reserved.contains (toSnakeCase "Type") = true ∧
    reserved.contains "Type" = false ∧
    "type" ≠ "type" ++ "_" :=
  ⟨by decide, by decide, by decide, by decide, by decide⟩

/-- C3 (amended): a rendered field is named by snake-casing the computed
output name, except that when the raw (pre-conversion) output name is a
reserved keyword, the emitted name is the raw name with an appended
underscore and a rename back to the raw name; collisions that only arise
after case conversion are not escaped. -/
theorem c3_amended_keyword_escaping (fn : String) (ty : RustType) (d : Option String)
    (status : DeprecationStatus) (strat : DeprecationStrategy) (rf : RenderedField)
    (h : render_object_field fn ty d status strat = some rf) :
    (reserved.contains fn = true → rf.name = fn ++ "_" ∧ rf.rename = some fn) ∧
    (reserved.contains fn = false →
      rf.name = toSnakeCase fn ∧ rf.rename = field_rename_annot fn (toSnakeCase fn)) :=
  ⟨(render_object_field_shape fn ty d status strat rf h).2.2.2.1,
   (render_object_field_shape fn ty d status strat rf h).2.2.2.2⟩

/-- Witness for C3 on the reserved name Self. -/
theorem c3_witness :
    (render_object_field "Self" (RustType.named "X") none .current .allow =
      some { name := "Self_", type_ := .named "X", rename := some "Self",
             deprecation_note := none, doc := none, flatten := false }) ∧
    ((reserved.contains "Self" = true →
        ({ name := "Self_", type_ := RustType.named "X", rename := some "Self",
           deprecation_note := none, doc := none, flatten := false } : RenderedField).name =
          "Self" ++ "_" ∧
        ({ name := "Self_", type_ := RustType.named "X", rename := some "Self",
           deprecation_note := none, doc := none, flatten := false } : RenderedField).rename =
          some "Self") ∧
     (reserved.contains "Self" = false →
        ({ name := "Self_", type_ := RustType.named "X", rename := some "Self",
           deprecation_note := none, doc := none, flatten := false } : RenderedField).name =
          toSnakeCase "Self" ∧
        ({ name := "Self_", type_ := RustType.named "X", rename := some "Self",
           deprecation_note := none, doc := none, flatten := false } : RenderedField).rename =
          field_rename_annot "Self" (toSnakeCase "Self"))) :=
  ⟨by decide,
   c3_amended_keyword_escaping "Self" (RustType.named "X") none .current .allow _ (by decide)⟩

/-- C6: deprecation policy. A field deprecated with reason R is dropped
entirely under Deny (and the empty result is filtered out of the emitted
field list); present under Warn with a deprecation marker carrying R (or
a bare marker when no reason is given); present under Allow with no
deprecation marker. -/
theorem c6_deprecation_policy (fn : String) (ty : RustType) (d : Option String)
    (r : String) :
    render_object_field fn ty d (.deprecated (some r)) .deny = none ∧
    (render_object_field fn ty d (.deprecated (some r)) .warn).map
        (fun rf => rf.deprecation_note) = some (some (some r)) ∧
    (render_object_field fn ty d (.deprecated none) .warn).map
        (fun rf => rf.deprecation_note) = some (some none) ∧
    (render_object_field fn ty d (.deprecated (some r)) .allow).map
        (fun rf => rf.deprecation_note) = some none ∧
    (∀ (tn : String) (ctx : QueryContext) (prefx : String) (st : ReqState)
        (ift : FieldType) (alias_ : Option String),
      ctx.deprecation_strategy = .deny →
      response_fields_for_selection tn [⟨d, fn, ift, .deprecated (some r)⟩] ctx prefx st
          [.field fn alias_ []] =
        .ok ([], { st with required := ctx.schema.require st.required ift.inner_name_str })) := by
  refine ⟨rfl, ?_, ?_, ?_, ?_⟩
  · by_cases hres : fn ∈ reserved <;> simp [render_object_field, hres]
  · by_cases hres : fn ∈ reserved <;> simp [render_object_field, hres]
  · by_cases hres : fn ∈ reserved <;> simp [render_object_field, hres]
  · intro tn ctx prefx st ift alias_ hstrat
    simp only [response_fields_for_selection]
    rw [List.find?_cons_of_pos _ (by simp)]
    simp only [response_fields_for_selection]
    rw [hstrat]
    rfl

/-- Witness for C6: a denied deprecated field vanishes from the rendered
selection. -/
theorem c6_witness :
    (ctxDeny.deprecation_strategy = .deny) ∧
    response_fields_for_selection "Cat" [⟨none, "color", .named "Float",
        .deprecated (some "old")⟩] ctxDeny "" ⟨[], []⟩ [.field "color" none []] =
      .ok ([], { required := ctxDeny.schema.require [] (FieldType.named "Float").inner_name_str,
                 required_fragments := [] }) :=
  ⟨rfl,
   (c6_deprecation_policy "color" (RustType.named "X") none "old").2.2.2.2
     "Cat" ctxDeny "" ⟨[], []⟩ (.named "Float") none rfl⟩

/-- C4 counterexample: a field selected under an alias. The emitted field
is snake-cased from the alias and the rename directive carries the alias
(the wire key of the response), not the schema field name `weight` that
the claim demands. -/
theorem c4_counterexample_rename_carries_alias :
    response_fields_for_selection "Dog" [⟨none, "weight", .named "Float", .current⟩]
        ctx0 "" ⟨[], []⟩ [.field "weight" (some "myWeight") []] =
      .ok ([{ name := "my_weight", type_ := .named "Float", rename := some "myWeight",
              deprecation_note := none, doc := none, flatten := false }], ⟨[], []⟩) ∧
    (some "myWeight" : Option String) ≠ some "weight" ∧
    "my_weight" ≠ "weight" :=
  ⟨by rfl, by decide, by decide⟩

/-- C4 (amended): every non-flattened rendered response field arises from
a selected field item; its emitted name and rename are computed from the
effective output name — the alias when present, else the schema field
name — so a rename directive, when present, carries the effective output
name (the wire key), not the schema name of an aliased field. -/
theorem c4_amended_rename_carries_output_name (tn : String)
    (schema_fields : List GqlObjectField) (ctx : QueryContext) (prefx : String) :
    ∀ (sel : List SelectionItem) (st st' : ReqState) (fields : List RenderedField),
      response_fields_for_selection tn schema_fields ctx prefx st sel = .ok (fields, st') →
      ∀ rf ∈ fields, rf.flatten = false →
        ∃ name alias_ sub, SelectionItem.field name alias_ sub ∈ sel ∧
          ((reserved.contains (alias_.getD name) = true ∧
              rf.name = (alias_.getD name) ++ "_" ∧
              rf.rename = some (alias_.getD name)) ∨
           (reserved.contains (alias_.getD name) = false ∧
              rf.name = toSnakeCase (alias_.getD name) ∧
              rf.rename = field_rename_annot (alias_.getD name)
                (toSnakeCase (alias_.getD name)))) := by
  intro sel
  induction sel with
  | nil =>
    intro st st' fields h rf hrf _
    simp only [response_fields_for_selection, Except.ok.injEq, Prod.mk.injEq] at h
    obtain ⟨rfl, rfl⟩ := h
    simp at hrf
  | cons item rest ih =>
    intro st st' fields h rf hrf hflat
    cases item with
    | field name alias_ sub =>
      simp only [response_fields_for_selection] at h
      split at h
      · exact absurd h (by simp)
      · rename_i sf hfind
        split at h
        · exact absurd h (by simp)
        · rename_i restFields st2 hrec
          split at h
          · rename_i rf0 hrend
            simp only [Except.ok.injEq, Prod.mk.injEq] at h
            obtain ⟨hfields, rfl⟩ := h
            rcases List.mem_cons.mp (hfields ▸ hrf) with rfl | htail
            · refine ⟨name, alias_, sub, List.mem_cons_self _ _, ?_⟩
              have hs := render_object_field_shape _ _ _ _ _ _ hrend
              cases hres : reserved.contains (alias_.getD name) with
              | true => exact Or.inl ⟨rfl, hs.2.2.2.1 hres⟩
              | false => exact Or.inr ⟨rfl, hs.2.2.2.2 hres⟩
            · obtain ⟨n2, a2, s2, hmem, hshape⟩ := ih _ _ _ hrec rf htail hflat
              exact ⟨n2, a2, s2, List.mem_cons_of_mem _ hmem, hshape⟩
          · rename_i hrend
            simp only [Except.ok.injEq, Prod.mk.injEq] at h
            obtain ⟨hfields, rfl⟩ := h
            obtain ⟨n2, a2, s2, hmem, hshape⟩ := ih _ _ _ hrec rf (hfields ▸ hrf) hflat
            exact ⟨n2, a2, s2, List.mem_cons_of_mem _ hmem, hshape⟩
    | fragmentSpread fname =>
      simp only [response_fields_for_selection] at h
      split at h
      · exact absurd h (by simp)
      · rename_i restFields st2 hrec
        simp only [Except.ok.injEq, Prod.mk.injEq] at h
        obtain ⟨hfields, rfl⟩ := h
        rcases List.mem_cons.mp (hfields ▸ hrf) with rfl | htail
        · exact absurd hflat (by simp)
        · obtain ⟨n2, a2, s2, hmem, hshape⟩ := ih _ _ _ hrec rf htail hflat
          exact ⟨n2, a2, s2, List.mem_cons_of_mem _ hmem, hshape⟩
    | inlineFragment on_type sub =>
      simp only [response_fields_for_selection] at h
      exact absurd h (by simp)

/-- Witness for C4 at the aliased selection of the counterexample. -/
theorem c4_witness :
    (response_fields_for_selection "Dog" [⟨none, "weight", .named "Float", .current⟩]
        ctx0 "" ⟨[], []⟩ [.field "weight" (some "myWeight") []] =
      .ok ([{ name := "my_weight", type_ := .named "Float", rename := some "myWeight",
              deprecation_note := none, doc := none, flatten := false }], ⟨[], []⟩)) ∧
    (∃ name alias_ sub,
      SelectionItem.field name alias_ sub ∈
        ([.field "weight" (some "myWeight") []] : List SelectionItem) ∧
      ((reserved.contains (alias_.getD name) = true ∧
          ({ name := "my_weight", type_ := RustType.named "Float",
             rename := some "myWeight", deprecation_note := none, doc := none,
             flatten := false } : RenderedField).name = (alias_.getD name) ++ "_" ∧
          ({ name := "my_weight", type_ := RustType.named "Float",
             rename := some "myWeight", deprecation_note := none, doc := none,
             flatten := false } : RenderedField).rename = some (alias_.getD name)) ∨
       (reserved.contains (alias_.getD name) = false ∧
          ({ name := "my_weight", type_ := RustType.named "Float",
             rename := some "myWeight", deprecation_note := none, doc := none,
             flatten := false } : RenderedField).name = toSnakeCase (alias_.getD name) ∧
          ({ name := "my_weight", type_ := RustType.named "Float",
             rename := some "myWeight", deprecation_note := none, doc := none,
             flatten := false } : RenderedField).rename =
            field_rename_annot (alias_.getD name) (toSnakeCase (alias_.getD name))))) :=
  ⟨by rfl,
   c4_amended_rename_carries_output_name "Dog" [⟨none, "weight", .named "Float", .current⟩]
     ctx0 "" [.field "weight" (some "myWeight") []] ⟨[], []⟩ ⟨[], []⟩
     [{ name := "my_weight", type_ := .named "Float", rename := some "myWeight",
        deprecation_note := none, doc := none, flatten := false }] (by rfl)
     _ (List.mem_singleton.mpr rfl) rfl⟩

/-! ## Lemmas about the unknown-field errors -/

theorem toList_append (a b : String) : (a ++ b).toList = a.toList ++ b.toList := by
  simp [String.toList, String.data_append]

/-- A concatenation layout proves inclusion. -/
theorem strIncludes_intro (hay pre needle post : String)
    (h : hay.toList = pre.toList ++ needle.toList ++ post.toList) :
    strIncludes hay needle :=
  ⟨pre.toList, post.toList, h.symm⟩

/-- Every joined element is included in the joined string. -/
theorem joinSep_strIncludes (sep : String) :
    ∀ (l : List String) (a : String), a ∈ l → strIncludes (joinSep sep l) a := by
  intro l
  induction l with
  | nil => intro a ha; simp at ha
  | cons x rest ih =>
    intro a ha
    cases rest with
    | nil =>
      have hx : a = x := by simpa using ha
      subst hx
      exact strIncludes_intro _ "" a "" (by simp [joinSep, toList_append])
    | cons y t =>
      rcases List.mem_cons.mp ha with rfl | hmem
      · exact strIncludes_intro _ "" a (sep ++ joinSep sep (y :: t))
          (by simp [joinSep, toList_append, List.append_assoc])
      · have h1 := ih a hmem
        have h2 : strIncludes (joinSep sep (x :: y :: t)) (joinSep sep (y :: t)) :=
          strIncludes_intro _ (x ++ sep) _ ""
            (by simp [joinSep, toList_append, List.append_assoc])
        exact List.IsInfix.trans h1 h2

/-- The response-path lookup failure (shared.rs 109-122). -/
theorem response_fields_unknown_field (tn : String)
    (schema_fields : List GqlObjectField) (ctx : QueryContext) (prefx : String)
    (st : ReqState) (name : String) (alias_ : Option String)
    (sub rest : List SelectionItem)
    (hfind : schema_fields.find? (fun f => f.name == name) = none) :
    response_fields_for_selection tn schema_fields ctx prefx st
        (SelectionItem.field name alias_ sub :: rest) =
      .error (.unknownFieldResp name tn (schema_fields.map (fun f => f.name))) := by
  simp only [response_fields_for_selection, hfind]

/-- The nested-definition-path lookup failure (shared.rs 79-82). -/
theorem field_impls_unknown_field (ctx : QueryContext)
    (fields : List GqlObjectField) (prefx : String) (st : ReqState)
    (name : String) (alias_ : Option String) (sub rest : List SelectionItem)
    (hfind : fields.find? (fun f => f.name == name) = none) :
    field_impls_for_selection ctx fields prefx st
        (SelectionItem.field name alias_ sub :: rest) =
      .error (.unknownFieldImpl name) := by
  simp only [field_impls_for_selection, hfind]

/-- C5 counterexample: the nested-definition resolution path fails on an
unknown field with a message that carries only the attempted field name:
it names neither the containing type Cat nor any of its valid fields. -/
theorem c5_counterexample_impl_path_message :
    field_impls_for_selection ctx0 catFields "" ⟨[], []⟩ [.field "color" none []] =
      .error (.unknownFieldImpl "color") ∧
    (GenError.unknownFieldImpl "color").message = "could not find field `color`" ∧
    ¬ strIncludes (GenError.unknownFieldImpl "color").message "Cat" ∧
    ¬ strIncludes (GenError.unknownFieldImpl "color").message "pawsCount" :=
  ⟨field_impls_unknown_field ctx0 catFields "" ⟨[], []⟩ "color" none [] [] (by rfl),
   by decide, by decide, by decide⟩

/-- C5 (amended): an unknown selected field always aborts resolution, but
the two lookup paths differ in diagnostics. The response-shape path
(shared.rs 105-122) raises an error whose message includes the attempted
field name, the containing type name and every valid field name; the
nested-definition path (shared.rs 65-92) raises an error whose message is
exactly the attempted field name quoted — without the containing type or
the valid field list. -/
theorem c5_amended_unknown_field_diagnostics :
    (∀ (tn : String) (schema_fields : List GqlObjectField) (ctx : QueryContext)
        (prefx : String) (st : ReqState) (name : String) (alias_ : Option String)
        (sub rest : List SelectionItem),
      schema_fields.find? (fun f => f.name == name) = none →
      response_fields_for_selection tn schema_fields ctx prefx st
          (SelectionItem.field name alias_ sub :: rest) =
        .error (.unknownFieldResp name tn (schema_fields.map (fun f => f.name))) ∧
      strIncludes (GenError.unknownFieldResp name tn
        (schema_fields.map (fun f => f.name))).message name ∧
      strIncludes (GenError.unknownFieldResp name tn
        (schema_fields.map (fun f => f.name))).message tn ∧
      ∀ a ∈ schema_fields.map (fun f => f.name),
        strIncludes (GenError.unknownFieldResp name tn
          (schema_fields.map (fun f => f.name))).message a) ∧
    (∀ (ctx : QueryContext) (fields : List GqlObjectField) (prefx : String)
        (st : ReqState) (name : String) (alias_ : Option String)
        (sub rest : List SelectionItem),
      fields.find? (fun f => f.name == name) = none →
      field_impls_for_selection ctx fields prefx st
          (SelectionItem.field name alias_ sub :: rest) =
        .error (.unknownFieldImpl name) ∧
      (GenError.unknownFieldImpl name).message =
        "could not find field `" ++ name ++ "`") := by
  constructor
  · intro tn schema_fields ctx prefx st name alias_ sub rest hfind
    refine ⟨response_fields_unknown_field tn schema_fields ctx prefx st name alias_
      sub rest hfind, ?_, ?_, ?_⟩
    · exact strIncludes_intro _ "Could not find field `" name
        ("` on `" ++ tn ++ "`. Available fields: `" ++
          joinSep "`, `" (schema_fields.map (fun f => f.name)) ++ "`.")
        (by simp [GenError.message, toList_append, List.append_assoc])
    · exact strIncludes_intro _ ("Could not find field `" ++ name ++ "` on `") tn
        ("`. Available fields: `" ++
          joinSep "`, `" (schema_fields.map (fun f => f.name)) ++ "`.")
        (by simp [GenError.message, toList_append, List.append_assoc])
    · intro a ha
      have h1 := joinSep_strIncludes "`, `" (schema_fields.map (fun f => f.name)) a ha
      have h2 : strIncludes (GenError.unknownFieldResp name tn
          (schema_fields.map (fun f => f.name))).message
          (joinSep "`, `" (schema_fields.map (fun f => f.name))) :=
        strIncludes_intro _
          ("Could not find field `" ++ name ++ "` on `" ++ tn ++ "`. Available fields: `")
          _ "`." (by simp [GenError.message, toList_append, List.append_assoc])
      exact List.IsInfix.trans h1 h2
  · intro ctx fields prefx st name alias_ sub rest hfind
    exact ⟨field_impls_unknown_field ctx fields prefx st name alias_ sub rest hfind, rfl⟩

/-- Witness for C5 on the Cat fields with the unknown field color. -/
theorem c5_witness :
    (catFields.find? (fun f => f.name == "color") = none) ∧
    (response_fields_for_selection "Cat" catFields ctx0 "" ⟨[], []⟩
        [.field "color" none []] =
      .error (.unknownFieldResp "color" "Cat" (catFields.map (fun f => f.name))) ∧
    strIncludes (GenError.unknownFieldResp "color" "Cat"
      (catFields.map (fun f => f.name))).message "color" ∧
    strIncludes (GenError.unknownFieldResp "color" "Cat"
      (catFields.map (fun f => f.name))).message "Cat" ∧
    ∀ a ∈ catFields.map (fun f => f.name),
      strIncludes (GenError.unknownFieldResp "color" "Cat"
        (catFields.map (fun f => f.name))).message a) :=
  ⟨by rfl,
   c5_amended_unknown_field_diagnostics.1 "Cat" catFields ctx0 "" ⟨[], []⟩
     "color" none [] [] (by rfl)⟩

/-! ## The multi-field subscription error arises only at its check -/

/-- The response-shape resolver never produces the multi-field
subscription error. -/
theorem response_fields_no_multi (tn : String) (sfs : List GqlObjectField)
    (ctx : QueryContext) (prefx : String) :
    ∀ (sel : List SelectionItem) (st : ReqState) (e : GenError),
      response_fields_for_selection tn sfs ctx prefx st sel = .error e →
      e ≠ .multipleSubscriptionFields := by
  intro sel
  induction sel with
  | nil =>
    intro st e heq
    simp [response_fields_for_selection] at heq
  | cons item rest ih =>
    intro st e heq
    cases item with
    | field name alias_ sub =>
      simp only [response_fields_for_selection] at heq
      split at heq
      · simp only [Except.error.injEq] at heq
        subst heq
        simp
      · split at heq
        · rename_i hrec
          simp only [Except.error.injEq] at heq
          subst heq
          exact ih _ _ hrec
        · split at heq <;> exact absurd heq (by simp)
    | fragmentSpread fname =>
      simp only [response_fields_for_selection] at heq
      split at heq
      · rename_i hrec
        simp only [Except.error.injEq] at heq
        subst heq
        exact ih _ _ hrec
      · exact absurd heq (by simp)
    | inlineFragment o s =>
      simp only [response_fields_for_selection, Except.error.injEq] at heq
      subst heq
      simp

/-- The nested-definition resolver never produces the multi-field
subscription error. -/
theorem field_impls_no_multi (ctx : QueryContext) :
    ∀ (fields : List GqlObjectField) (prefx : String) (st : ReqState)
      (sel : List SelectionItem) (e : GenError),
      field_impls_for_selection ctx fields prefx st sel = Except.error e →
      e ≠ GenError.multipleSubscriptionFields := by
  intro fields prefx st sel
  refine field_impls_for_selection.induct ctx
    (fun fields prefx st sel => ∀ e,
      field_impls_for_selection ctx fields prefx st sel = Except.error e →
        e ≠ GenError.multipleSubscriptionFields)
    (fun ty prefx st sel => ∀ e,
      maybe_expand_field ctx ty prefx st sel = Except.error e →
        e ≠ GenError.multipleSubscriptionFields)
    ?_ ?_ ?_ ?_ ?_ ?_ ?_ ?_ ?_ ?_ ?_ ?_ fields prefx st sel
  · intro fields prefx st e heq
    simp [field_impls_for_selection] at heq
  · intro fields prefx st name alias_ sub rest hfind e heq
    simp only [field_impls_for_selection, hfind, Except.error.injEq] at heq
    subst heq
    simp
  · intro fields prefx st name alias_ sub rest schema_field hfind prefx2 e0 hmay ih2 e heq
    simp only [field_impls_for_selection, hfind, hmay, Except.error.injEq] at heq
    subst heq
    exact ih2 _ hmay
  · intro fields prefx st name alias_ sub rest schema_field hfind prefx2 defs2 st2 hmay
      e0 hrec ih2 ih1 e heq
    simp only [field_impls_for_selection, hfind, hmay, hrec, Except.error.injEq] at heq
    subst heq
    exact ih1 _ hrec
  · intro fields prefx st name alias_ sub rest schema_field hfind prefx2 defs2 st2 hmay
      defs3 st3 hrec ih2 ih1 e heq
    simp [field_impls_for_selection, hfind, hmay, hrec] at heq
  · intro fields prefx st head rest hnotfield ih e heq
    cases head with
    | field n a s => exact (hnotfield n a s rfl).elim
    | fragmentSpread fn =>
      simp only [field_impls_for_selection] at heq
      exact ih e heq
    | inlineFragment o s =>
      simp only [field_impls_for_selection] at heq
      exact ih e heq
  · intro ty prefx st sel hb e heq
    simp only [maybe_expand_field] at heq
    rw [if_pos hb] at heq
    simp at heq
  · intro ty prefx st sel hb hse e heq
    simp only [maybe_expand_field] at heq
    rw [if_neg hb, if_pos hse] at heq
    simp at heq
  · intro ty prefx st sel hb hse obj hobj e0 himpl ih1 e heq
    simp only [maybe_expand_field] at heq
    rw [if_neg hb, if_neg hse, hobj] at heq
    dsimp only at heq
    rw [himpl] at heq
    simp only [Except.error.injEq] at heq
    subst heq
    exact ih1 _ himpl
  · intro ty prefx st sel hb hse obj hobj defs2 st2 himpl e0 hresp ih1 e heq
    simp only [maybe_expand_field] at heq
    rw [if_neg hb, if_neg hse, hobj] at heq
    dsimp only at heq
    rw [himpl] at heq
    dsimp only at heq
    rw [hresp] at heq
    simp only [Except.error.injEq] at heq
    subst heq
    exact response_fields_no_multi _ _ _ _ _ _ _ hresp
  · intro ty prefx st sel hb hse obj hobj defs2 st2 himpl restFields st3 hresp ih1 e heq
    simp only [maybe_expand_field] at heq
    rw [if_neg hb, if_neg hse, hobj] at heq
    dsimp only at heq
    rw [himpl] at heq
    dsimp only at heq
    rw [hresp] at heq
    exact absurd heq (by simp)
  · intro ty prefx st sel hb hse hobj e heq
    simp only [maybe_expand_field] at heq
    rw [if_neg hb, if_neg hse, hobj] at heq
    dsimp only at heq
    simp only [Except.error.injEq] at heq
    subst heq
    simp

/-- The fragment collection never produces the multi-field subscription
error. -/
theorem render_fragments_no_multi (ctx : QueryContext) :
    ∀ (l : List GqlFragment) (st : ReqState) (e : GenError),
      render_fragments ctx l st = .error e → e ≠ .multipleSubscriptionFields := by
  intro l
  induction l with
  | nil =>
    intro st e heq
    simp [render_fragments] at heq
  | cons f rest ih =>
    intro st e heq
    simp only [render_fragments] at heq
    split at heq
    · split at heq
      · rename_i e0 hto
        simp only [Except.error.injEq] at heq
        subst heq
        unfold GqlFragment.to_rust at hto
        split at hto
        · simp only [Except.error.injEq] at hto
          subst hto
          simp
        · split at hto
          · rename_i e1 hresp
            simp only [Except.error.injEq] at hto
            subst hto
            exact response_fields_no_multi _ _ _ _ _ _ _ hresp
          · exact absurd hto (by simp)
      · rename_i d st2 hto
        split at heq
        · rename_i e0 hrec
          simp only [Except.error.injEq] at heq
          subst heq
          exact ih _ _ hrec
        · exact absurd heq (by simp)
    · exact ih _ _ heq

/-- C7: a subscription operation whose root selection has more than one
top-level field makes `response_for_query` fail with the multi-field
subscription error before any type definition is synthesized — the check
sits ahead of all selection resolution and type collection; with exactly
one top-level field the multi-field subscription error cannot arise, on
any path of the remaining pipeline. -/
theorem c7_subscription_single_field_rule (schema : Schema) (query : Document)
    (operation : Operation) (strategy : DeprecationStrategy)
    (multiple_operation : Bool) (st : ReqState)
    (hsub : operation.operation_type = OperationType.subscription)
    (hroot : (schema.lookupObject (operation.root_name schema)).isSome = true) :
    (1 < operation.selection.length →
      response_for_query schema query operation strategy multiple_operation st =
        .error .multipleSubscriptionFields) ∧
    (operation.selection.length = 1 →
      response_for_query schema query operation strategy multiple_operation st ≠
        .error .multipleSubscriptionFields) := by
  obtain ⟨defob, hdef⟩ := Option.isSome_iff_exists.mp hroot
  constructor
  · intro hlen
    have hguard :
        (operation.is_subscription && decide (1 < operation.selection.length)) = true := by
      simp [Operation.is_subscription, hsub, hlen]
    simp only [response_for_query, hdef]
    rw [if_pos hguard]
  · intro hlen hcontra
    have hguard :
        (operation.is_subscription && decide (1 < operation.selection.length)) = false := by
      simp [hlen]
    simp only [response_for_query, hdef] at hcontra
    rw [hguard] at hcontra
    simp only [Bool.false_eq_true, if_false] at hcontra
    split at hcontra
    · rename_i e h1
      simp only [Except.error.injEq] at hcontra
      exact field_impls_no_multi _ _ _ _ _ _ h1 hcontra
    · rename_i defs st1 h1
      split at hcontra
      · rename_i e h2
        simp only [Except.error.injEq] at hcontra
        exact response_fields_no_multi _ _ _ _ _ _ _ h2 hcontra
      · rename_i fieldsR st2 h2
        split at hcontra
        · rename_i e h3
          simp only [Except.error.injEq] at hcontra
          exact render_fragments_no_multi _ _ _ _ h3 hcontra
        · exact absurd hcontra (by simp)

/-- Witness for C7: the subscription root Sub with two selected fields
fails with the multi-field subscription error; with one selected field
that error cannot occur. -/
theorem c7_witness :
    (opSub2.operation_type = OperationType.subscription) ∧
    ((subSchema.lookupObject (opSub2.root_name subSchema)).isSome = true) ∧
    (1 < opSub2.selection.length) ∧
    response_for_query subSchema [] opSub2 .allow false ⟨[], []⟩ =
      .error .multipleSubscriptionFields ∧
    (opSub1.selection.length = 1) ∧
    response_for_query subSchema [] opSub1 .allow false ⟨[], []⟩ ≠
      .error .multipleSubscriptionFields :=
  ⟨rfl, by decide, by decide,
   (c7_subscription_single_field_rule subSchema [] opSub2 .allow false ⟨[], []⟩
     rfl (by decide)).1 (by decide),
   rfl,
   (c7_subscription_single_field_rule subSchema [] opSub1 .allow false ⟨[], []⟩
     rfl (by decide)).2 rfl⟩

/-! ## Monotonicity of the required flags across the pipeline -/

/-- The fold of `GqlInput::to_rust` only adds required names. -/
theorem to_rust_foldl_snd_subset (ctx : QueryContext) (inpName : String) :
    ∀ (l : List GqlObjectField) (acc : List RenderedField × List String) (x : String),
      x ∈ acc.2 →
      x ∈ (l.foldl (fun acc field => (acc.1 ++ [renderInputField inpName field],
        ctx.schema.require acc.2 field.type_.inner_name_str)) acc).2 := by
  intro l
  induction l with
  | nil => intro acc x hx; simpa using hx
  | cons f rest ih =>
    intro acc x hx
    simp only [List.foldl_cons]
    exact ih _ x (subset_schema_require _ _ _ x hx)

/-- `GqlInput::to_rust` only adds required names. -/
theorem to_rust_snd_subset (ctx : QueryContext) (inp : GqlInput) (st : List String) :
    ∀ x ∈ st, x ∈ (GqlInput.to_rust ctx inp st).2 := by
  intro x hx
  unfold GqlInput.to_rust
  exact to_rust_foldl_snd_subset ctx inp.name _ ([], st) x hx

/-- The response-shape resolver only adds required names and required
fragments. -/
theorem response_fields_mono (tn : String) (sfs : List GqlObjectField)
    (ctx : QueryContext) (prefx : String) :
    ∀ (sel : List SelectionItem) (st : ReqState) (fields : List RenderedField)
      (st' : ReqState),
      response_fields_for_selection tn sfs ctx prefx st sel = .ok (fields, st') →
      (∀ x ∈ st.required, x ∈ st'.required) ∧
      (∀ x ∈ st.required_fragments, x ∈ st'.required_fragments) := by
  intro sel
  induction sel with
  | nil =>
    intro st fields st' h
    simp only [response_fields_for_selection, Except.ok.injEq, Prod.mk.injEq] at h
    obtain ⟨rfl, rfl⟩ := h
    exact ⟨fun x hx => hx, fun x hx => hx⟩
  | cons item rest ih =>
    intro st fields st' h
    cases item with
    | field name alias_ sub =>
      simp only [response_fields_for_selection] at h
      split at h
      · exact absurd h (by simp)
      · rename_i sf hfind
        split at h
        · exact absurd h (by simp)
        · rename_i restFields st2 hrec
          have hmono := ih _ _ _ hrec
          have hstep : ∀ x ∈ st.required,
              x ∈ (ctx.schema.require st.required sf.type_.inner_name_str) :=
            subset_schema_require _ _ _
          split at h <;>
            (simp only [Except.ok.injEq, Prod.mk.injEq] at h
             obtain ⟨-, rfl⟩ := h
             exact ⟨fun x hx => hmono.1 x (hstep x hx), fun x hx => hmono.2 x hx⟩)
    | fragmentSpread fname =>
      simp only [response_fields_for_selection] at h
      split at h
      · exact absurd h (by simp)
      · rename_i restFields st2 hrec
        have hmono := ih _ _ _ hrec
        simp only [Except.ok.injEq, Prod.mk.injEq] at h
        obtain ⟨-, rfl⟩ := h
        refine ⟨fun x hx => hmono.1 x hx, fun x hx => hmono.2 x ?_⟩
        split
        · exact hx
        · exact List.mem_cons_of_mem _ hx
    | inlineFragment o s =>
      simp only [response_fields_for_selection] at h
      exact absurd h (by simp)

/-- A rendered fragment definition is named after the fragment and its
rendering only adds flags. -/
theorem gqlfragment_to_rust_shape (ctx : QueryContext) (frag : GqlFragment)
    (st : ReqState) (d : TypeDef) (st' : ReqState)
    (h : GqlFragment.to_rust ctx frag st = .ok (d, st')) :
    d.defName = frag.name ∧
    (∀ x ∈ st.required, x ∈ st'.required) ∧
    (∀ x ∈ st.required_fragments, x ∈ st'.required_fragments) := by
  unfold GqlFragment.to_rust at h
  split at h
  · exact absurd h (by simp)
  · rename_i obj hobj
    split at h
    · exact absurd h (by simp)
    · rename_i fields st2 hresp
      simp only [Except.ok.injEq, Prod.mk.injEq] at h
      obtain ⟨rfl, rfl⟩ := h
      have hmono := response_fields_mono _ _ _ _ _ _ _ _ hresp
      exact ⟨rfl, hmono.1, hmono.2⟩

/-- The fragment collection only adds flags. -/
theorem render_fragments_mono (ctx : QueryContext) :
    ∀ (l : List GqlFragment) (st : ReqState) (defs : List TypeDef) (st' : ReqState),
      render_fragments ctx l st = .ok (defs, st') →
      (∀ x ∈ st.required, x ∈ st'.required) ∧
      (∀ x ∈ st.required_fragments, x ∈ st'.required_fragments) := by
  intro l
  induction l with
  | nil =>
    intro st defs st' h
    simp only [render_fragments, Except.ok.injEq, Prod.mk.injEq] at h
    obtain ⟨rfl, rfl⟩ := h
    exact ⟨fun x hx => hx, fun x hx => hx⟩
  | cons f rest ih =>
    intro st defs st' h
    simp only [render_fragments] at h
    split at h
    · split at h
      · exact absurd h (by simp)
      · rename_i d0 st2 hto
        split at h
        · exact absurd h (by simp)
        · rename_i ds st3 hrec
          simp only [Except.ok.injEq, Prod.mk.injEq] at h
          obtain ⟨-, rfl⟩ := h
          have h1 := gqlfragment_to_rust_shape ctx f st d0 st2 hto
          have h2 := ih _ _ _ hrec
          exact ⟨fun x hx => h2.1 x (h1.2.1 x hx), fun x hx => h2.2 x (h1.2.2 x hx)⟩
    · exact ih _ _ _ h

/-- A fold of `Schema.require` over variable types only adds names. -/
theorem foldl_require_subset (s : Schema) :
    ∀ (l : List (String × FieldType)) (acc : List String) (x : String), x ∈ acc →
      x ∈ l.foldl (fun a v => s.require a v.2.inner_name_str) acc := by
  intro l
  induction l with
  | nil => intro acc x hx; simpa using hx
  | cons v rest ih =>
    intro acc x hx
    simp only [List.foldl_cons]
    exact ih _ x (subset_schema_require _ _ _ x hx)

/-- The input-object collection leaves the fragment flags untouched. -/
theorem render_inputs_fragments_eq (ctx : QueryContext) :
    ∀ (l : List GqlInput) (st : ReqState),
      (render_inputs ctx l st).2.required_fragments = st.required_fragments := by
  intro l
  induction l with
  | nil => intro st; rfl
  | cons i rest ih =>
    intro st
    simp only [render_inputs]
    split
    · exact ih _
    · exact ih _

/-- The input-object collection only adds required names. -/
theorem render_inputs_required_subset (ctx : QueryContext) :
    ∀ (l : List GqlInput) (st : ReqState) (x : String), x ∈ st.required →
      x ∈ (render_inputs ctx l st).2.required := by
  intro l
  induction l with
  | nil => intro st x hx; simpa using hx
  | cons i rest ih =>
    intro st x hx
    simp only [render_inputs]
    split
    · exact ih _ x (to_rust_snd_subset ctx i st.required x hx)
    · exact ih _ x hx

/-- The name of a rendered input-object definition. -/
theorem to_rust_defName (ctx : QueryContext) (inp : GqlInput) (st : List String) :
    (GqlInput.to_rust ctx inp st).1.defName = inp.name := by
  rw [gqlinput_to_rust_fields]
  rfl

/-- Every emitted input-object definition names an input object of the
walked list whose flag is set in the final state. -/
theorem render_inputs_spec (ctx : QueryContext) :
    ∀ (l : List GqlInput) (st : ReqState) (d : TypeDef),
      d ∈ (render_inputs ctx l st).1 →
      ∃ i ∈ l, d.defName = i.name ∧ i.name ∈ (render_inputs ctx l st).2.required := by
  intro l
  induction l with
  | nil => intro st d hd; simp [render_inputs] at hd
  | cons i rest ih =>
    intro st d hd
    simp only [render_inputs] at hd ⊢
    split at hd
    · rename_i hflag
      split
      · rcases List.mem_cons.mp hd with rfl | hdrest
        · refine ⟨i, List.mem_cons_self _ _, to_rust_defName ctx i st.required, ?_⟩
          have h0 : i.name ∈ st.required := by simpa using hflag
          exact render_inputs_required_subset ctx rest _ i.name
            (to_rust_snd_subset ctx i st.required i.name h0)
        · obtain ⟨i2, hmem, hname, hreq⟩ := ih _ _ hdrest
          exact ⟨i2, List.mem_cons_of_mem _ hmem, hname, hreq⟩
      · rename_i hflag2
        exact absurd hflag hflag2
    · rename_i hflag
      split
      · rename_i hflag2
        exact absurd hflag2 hflag
      · obtain ⟨i2, hmem, hname, hreq⟩ := ih _ _ hd
        exact ⟨i2, List.mem_cons_of_mem _ hmem, hname, hreq⟩

/-- Every collected fragment definition names a fragment of the walked
list whose flag is set in the output state. -/
theorem render_fragments_spec (ctx : QueryContext) :
    ∀ (l : List GqlFragment) (st : ReqState) (defs : List TypeDef) (st' : ReqState),
      render_fragments ctx l st = .ok (defs, st') →
      ∀ d ∈ defs, ∃ f ∈ l, d.defName = f.name ∧ f.name ∈ st'.required_fragments := by
  intro l
  induction l with
  | nil =>
    intro st defs st' h d hd
    simp only [render_fragments, Except.ok.injEq, Prod.mk.injEq] at h
    obtain ⟨rfl, rfl⟩ := h
    simp at hd
  | cons f rest ih =>
    intro st defs st' h d hd
    simp only [render_fragments] at h
    split at h
    · rename_i hflag
      split at h
      · exact absurd h (by simp)
      · rename_i d0 st2 hto
        split at h
        · exact absurd h (by simp)
        · rename_i ds st3 hrec
          simp only [Except.ok.injEq, Prod.mk.injEq] at h
          obtain ⟨rfl, rfl⟩ := h
          have hshape := gqlfragment_to_rust_shape ctx f st d0 st2 hto
          rcases List.mem_cons.mp hd with rfl | hdrest
          · refine ⟨f, List.mem_cons_self _ _, hshape.1, ?_⟩
            have h0 : f.name ∈ st.required_fragments := by simpa using hflag
            exact (render_fragments_mono ctx rest st2 ds _ hrec).2 f.name
              (hshape.2.2 f.name h0)
          · obtain ⟨f2, hmem, hname, hreq⟩ := ih _ _ _ hrec d hdrest
            exact ⟨f2, List.mem_cons_of_mem _ hmem, hname, hreq⟩
    · obtain ⟨f2, hmem, hname, hreq⟩ := ih _ _ _ h d hd
      exact ⟨f2, List.mem_cons_of_mem _ hmem, hname, hreq⟩

/-- Expanding the variables struct leaves the fragment flags untouched. -/
theorem expand_variables_fragments_eq (ctx : QueryContext) (op : Operation)
    (st : ReqState) :
    ((op.expand_variables ctx st).2).required_fragments = st.required_fragments := rfl

/-- C8: the module `response_for_query` emits contains an enum, scalar,
input object or fragment type definition only if the required flag of
that entity is set (in the final flag state of the compilation); entities
whose flag is unset are never emitted. -/
theorem c8_only_required_entities_emitted (schema : Schema) (query : Document)
    (operation : Operation) (strategy : DeprecationStrategy)
    (multiple_operation : Bool) (st : ReqState) (parts : ModuleParts)
    (st' : ReqState)
    (h : response_for_query schema query operation strategy multiple_operation st =
      .ok (parts, st')) :
    (∀ d ∈ parts.enum_defs, ∃ e ∈ schema.enums,
      d = GqlEnum.to_rust e ∧ st'.required.contains e.name = true) ∧
    (∀ d ∈ parts.scalar_defs, ∃ sc ∈ schema.scalars,
      d = GqlScalar.to_rust sc ∧ st'.required.contains sc.name = true) ∧
    (∀ d ∈ parts.input_defs, ∃ i ∈ schema.inputs,
      d.defName = i.name ∧ st'.required.contains i.name = true) ∧
    (∀ d ∈ parts.fragment_defs, ∃ name on_type selection,
      Definition.fragment name on_type selection ∈ query ∧
      d.defName = name ∧ st'.required_fragments.contains name = true) := by
  simp only [response_for_query] at h
  split at h
  · exact absurd h (by simp)
  · rename_i defob hdef
    split at h
    · exact absurd h (by simp)
    · split at h
      · exact absurd h (by simp)
      · rename_i definitions st1 himpl
        split at h
        · exact absurd h (by simp)
        · rename_i respFields st2 hresp
          split at h
          · exact absurd h (by simp)
          · rename_i fragment_definitions st3 hfrag
            simp only [Except.ok.injEq, Prod.mk.injEq] at h
            obtain ⟨hparts, hst⟩ := h
            subst hparts
            subst hst
            refine ⟨?_, ?_, ?_, ?_⟩
            · intro d hd
              obtain ⟨e, he, rfl⟩ := List.mem_map.mp hd
              obtain ⟨hee, hflag⟩ := List.mem_filter.mp he
              exact ⟨e, hee, rfl, hflag⟩
            · intro d hd
              obtain ⟨sc, hsc, rfl⟩ := List.mem_map.mp hd
              obtain ⟨hscc, hflag⟩ := List.mem_filter.mp hsc
              exact ⟨sc, hscc, rfl, hflag⟩
            · intro d hd
              obtain ⟨i, hi, hname, hreq⟩ := render_inputs_spec _ _ _ _ hd
              exact ⟨i, hi, hname, by simpa using hreq⟩
            · intro d hd
              obtain ⟨f, hf, hname, hreq⟩ :=
                render_fragments_spec _ _ _ _ _ hfrag d hd
              obtain ⟨d0, hd0, hmatch⟩ := List.mem_filterMap.mp hf
              cases d0 with
              | operation op => simp at hmatch
              | fragment n o sel =>
                simp only [Option.some.injEq] at hmatch
                subst hmatch
                refine ⟨n, o, sel, hd0, hname, ?_⟩
                simp only [render_inputs_fragments_eq, expand_variables_fragments_eq]
                simpa using hreq

/-- Witness for C8: compiling `opQ8` against `q8Schema` emits exactly the
reachable enum Color (and not the unreferenced enum), and the emitted
enum definition corresponds to a schema enum with its flag set in the
final state. -/
theorem c8_witness :
    (response_for_query q8Schema [] opQ8 .allow false ⟨[], []⟩ =
      .ok (parts8, ⟨["Color"], []⟩)) ∧
    (∃ e ∈ q8Schema.enums, TypeDef.enumDef "Color" ["RED", "GREEN"] = GqlEnum.to_rust e ∧
      (⟨["Color"], []⟩ : ReqState).required.contains e.name = true) := by
  have himpl : field_impls_for_selection
      ⟨⟨[⟨"Query", [⟨none, "x", FieldType.named "Color", .current⟩]⟩], [],
        [⟨"Color", ["RED", "GREEN"]⟩, ⟨"Unused", ["U"]⟩], [], "Query", "Mutation",
        "Subscription"⟩, [], .allow⟩
      [⟨none, "x", FieldType.named "Color", .current⟩] "Q" ⟨[], []⟩
      [.field "x" none []] = .ok ([], ⟨["Color"], []⟩) := by
    simp [field_impls_for_selection, maybe_expand_field, Schema.require,
      requireAux, requireAuxF, requireFuel, sumUnmarked, Schema.lookupInput,
      Schema.hasScalar, Schema.hasEnum, Schema.lookupObject, builtinScalars,
      FieldType.inner_name_str]
  have h : response_for_query q8Schema [] opQ8 .allow false ⟨[], []⟩ =
      .ok (parts8, ⟨["Color"], []⟩) := by
    simp only [response_for_query, q8Schema, opQ8, Operation.root_name,
      List.filterMap_nil]
    rw [show (Schema.lookupObject ⟨[⟨"Query", [⟨none, "x", .named "Color", .current⟩]⟩],
        [], [⟨"Color", ["RED", "GREEN"]⟩, ⟨"Unused", ["U"]⟩], [], "Query", "Mutation",
        "Subscription"⟩ "Query") = some ⟨"Query", [⟨none, "x", .named "Color", .current⟩]⟩
      from rfl]
    dsimp only
    rw [if_neg (by decide)]
    rw [himpl]
    rfl
  refine ⟨h, ?_⟩
  have hc := c8_only_required_entities_emitted q8Schema [] opQ8 .allow false
    ⟨[], []⟩ parts8 ⟨["Color"], []⟩ h
  exact hc.1 (TypeDef.enumDef "Color" ["RED", "GREEN"]) (by decide)
